import Mathlib

/-!
# Verification of the scratchpad framework-normalization scripts

This file gives a shallow embedding, in Lean 4, of the text-processing core of
the repository's Python scripts:

* `scripts/convert_frameworks_to_proper_yaml.py` — `clean_text`,
  `parse_scratchpad_sections`, `parse_xml_to_yaml`, `convert_framework`;
* `scripts/fix_all_yaml_compliance.py` — the `YAMLRemediator` fixer pipeline
  (`fix_yaml_file` and `_fix_escaped_content`) and its statistics;
* `scripts/add_yaml_doc_markers.py` — `add_doc_marker`.

Strings are modelled as `List Char` (with `String` wrappers named after the
Python functions).  The Python regular expressions used by the scripts are
embedded as executable scanners that implement the leftmost-match,
greedy/lazy backtracking semantics of CPython's `re` for each concrete
pattern appearing in the source.  Recursive scanners take an explicit fuel
argument (always instantiated with the length of the input, which is proved
sufficient), so every definition is a computable structural recursion.
-/

namespace Scratchpad

/-- Python's notion of whitespace for `str.strip` / `str.rstrip` and for the
`\s` class of the `re` module (Unicode mode, which is what every script
uses).  This is the set of code points `c` with `str.isspace()` true:
ASCII whitespace, the C1 controls `\x1c`–`\x1f`, NEL `\x85`, NBSP `\xa0`,
and the Unicode space separators. -/
def isPySpace (c : Char) : Bool :=
  let n := c.toNat
  (9 ≤ n && n ≤ 13) || n = 32 || (28 ≤ n && n ≤ 31) || n = 0x85 || n = 0xa0 ||
  n = 0x1680 || (0x2000 ≤ n && n ≤ 0x200a) || n = 0x2028 || n = 0x2029 ||
  n = 0x202f || n = 0x205f || n = 0x3000

/-- The character class `[a-zA-Z0-9_]` of `_fix_escaped_content`'s pattern. -/
def isWordChar (c : Char) : Bool :=
  ('a' ≤ c && c ≤ 'z') || ('A' ≤ c && c ≤ 'Z') || ('0' ≤ c && c ≤ '9') || c = '_'

/-- Named character tests, used instead of anonymous lambdas so that
rewriting in proofs is stable. -/
def notSlashGt (c : Char) : Bool := c ≠ '/' && c ≠ '>'

/-- `[^>]` of the close-tag-like pattern. -/
def notGt (c : Char) : Bool := c ≠ '>'

/-- `[^"]` of the escaped-field pattern. -/
def notQuote (c : Char) : Bool := c ≠ '"'

/-- `[^:]` of the bracket pattern. -/
def notColon (c : Char) : Bool := c ≠ ':'

/-- One lazy `.` step of the bracket pattern: not `]`, not a newline. -/
def notRbNl (c : Char) : Bool := c ≠ ']' && c ≠ '\n'

/-- A dash, for `-{3,}`. -/
def isDash (c : Char) : Bool := c = '-'

/-- Not a newline, for the whitespace-run analysis. -/
def notNl (c : Char) : Bool := c ≠ '\n'

/-- Python `str.lstrip()` on a list of characters. -/
def pyLstrip (l : List Char) : List Char := l.dropWhile isPySpace

/-- Python `str.rstrip()` on a list of characters. -/
def pyRstrip (l : List Char) : List Char := (l.reverse.dropWhile isPySpace).reverse

/-- Python `str.strip()` on a list of characters. -/
def pyStrip (l : List Char) : List Char := pyRstrip (pyLstrip l)

/-- Python `str.lower()`.  The scripts only ever lower-case markup tag
names; we model the ASCII case mapping (`str.lower` additionally maps
non-ASCII cased letters, which the corpus dialect does not use). -/
def pyLower (l : List Char) : List Char := l.map Char.toLower

/-- `list.count`/substring membership helper: does `pat` occur as a
contiguous substring of `l` (Python's `pat in s`)? -/
def containsSub (pat l : List Char) : Bool :=
  match l with
  | [] => pat.isEmpty
  | _ :: t => pat.isPrefixOf l || containsSub pat t

/-- Python `s.split('\n')` (always returns at least one piece). -/
def splitNl (l : List Char) : List (List Char) :=
  match l with
  | [] => [[]]
  | c :: t =>
    if c = '\n' then [] :: splitNl t
    else
      match splitNl t with
      | [] => [[c]]
      | p :: ps => (c :: p) :: ps

/-- Python `'\n'.join(lines)`. -/
def joinNl (ls : List (List Char)) : List Char :=
  match ls with
  | [] => []
  | [p] => p
  | p :: ps => p ++ '\n' :: joinNl ps

/-- Python values, as needed by these scripts: strings, lists of strings
(the `sections` lists), and insertion-ordered dictionaries with string
keys.  Dictionaries are association lists; the scripts only ever build
them by repeated assignment, which keeps keys unique. -/
inductive PyVal where
  | str : String → PyVal
  | strlist : List String → PyVal
  | dict : List (String × PyVal) → PyVal
  deriving Repr

/-- Python dictionary assignment `d[k] = v`: replace the value at the first
occurrence of `k` keeping its position, or append `(k, v)` at the end. -/
def dictSet (d : List (String × PyVal)) (k : String) (v : PyVal) :
    List (String × PyVal) :=
  match d with
  | [] => [(k, v)]
  | (k', v') :: rest =>
    if k' = k then (k, v) :: rest else (k', v') :: dictSet rest k v

/-- Python dictionary lookup `d[k]` / `d.get(k)`. -/
def dictGet (d : List (String × PyVal)) (k : String) : Option PyVal :=
  match d with
  | [] => none
  | (k', v') :: rest => if k' = k then some v' else dictGet rest k

/-- Python `k in d` for a dictionary. -/
def dictHas (d : List (String × PyVal)) (k : String) : Bool :=
  (dictGet d k).isSome

/-- Python `del d[k]` (on the key-unique dictionaries the scripts build,
removing every occurrence of the key coincides with Python's behaviour). -/
def dictDel (d : List (String × PyVal)) (k : String) : List (String × PyVal) :=
  match d with
  | [] => []
  | (k', v') :: rest => if k' = k then dictDel rest k else (k', v') :: dictDel rest k

/-! ## `clean_text`

`clean_text` first runs `re.sub(r'\n\s*\n\s*\n+', '\n\n', text)`.  A match of
that pattern is a whitespace-only span that starts at a newline and contains
at least three newlines; with leftmost-match and greedy backtracking the
matched span runs from the first newline of a maximal whitespace run
containing three or more newlines up to (and including) the last newline of
that run.  `collapseBlankF` implements exactly this scan. -/

/-- The part of the maximal whitespace prefix of `l` that follows its last
newline (whitespace but newline-free). -/
def wsTailAfterNl (l : List Char) : List Char :=
  ((l.takeWhile isPySpace).reverse.takeWhile notNl).reverse

/-- Does the `\n\s*\n\s*\n+` pattern match at the head of `l`?  Per the
analysis above: the head is a newline and the maximal whitespace run from it
contains at least three newlines. -/
def blankTrigger (l : List Char) : Bool :=
  match l with
  | [] => false
  | c :: _ => c = '\n' && 3 ≤ (l.takeWhile isPySpace).count '\n'

/-- Fuelled scanner for `re.sub(r'\n\s*\n\s*\n+', '\n\n', text)`. -/
def collapseBlankF : Nat → List Char → List Char
  | 0, _ => []
  | _ + 1, [] => []
  | fuel + 1, c :: t =>
    if blankTrigger (c :: t) then
      '\n' :: '\n' ::
        collapseBlankF fuel (wsTailAfterNl (c :: t) ++ (c :: t).dropWhile isPySpace)
    else
      c :: collapseBlankF fuel t

/-- `re.sub(r'\n\s*\n\s*\n+', '\n\n', text)`. -/
def collapseBlank (l : List Char) : List Char := collapseBlankF l.length l

/-- `clean_text` on character lists: collapse blank-line runs, right-strip
every line, re-join, and strip the whole text. -/
def cleanTextL (l : List Char) : List Char :=
  pyStrip (joinNl ((splitNl (collapseBlank l)).map pyRstrip))

/-- `clean_text` from `convert_frameworks_to_proper_yaml.py`. -/
def clean_text (s : String) : String := ⟨cleanTextL s.data⟩

/-! ## The markup-tag pattern `<([^/>]+)>(.*?)</\1>`

`parse_xml_to_yaml` finds tag pairs with
`re.findall(tag_pattern, content, re.DOTALL | re.IGNORECASE)` and removes
them with `re.sub(tag_pattern, '', content, flags=re.DOTALL)` (note: the
removal is case-sensitive).  At a given start position the pattern matches
iff the position holds `<`, the next `/`-or-`>` afterwards is a `>` with a
nonempty name between, and the closing `</name>` occurs later (name compared
case-insensitively under `re.IGNORECASE`, exactly otherwise); the lazy body
takes the earliest such closing tag. -/

/-- Case comparison for the backreference `\1`: exact when `ci = false`,
ASCII-case-insensitive when `ci = true` (`re.IGNORECASE`). -/
def charMatches (ci : Bool) (a b : Char) : Bool :=
  if ci then a.toLower = b.toLower else a = b

/-- Does `l` start with the closing tag `</name>`? -/
def startsWithClose (ci : Bool) (name l : List Char) : Bool :=
  match l with
  | '<' :: '/' :: rest =>
    let rec go : List Char → List Char → Bool
      | [], '>' :: _ => true
      | n :: ns, c :: cs => charMatches ci n c && go ns cs
      | _, _ => false
    go name rest
  | _ => false

/-- Scan for the earliest closing tag `</name>`; return the body before it
and the remainder after it. -/
def findClose (ci : Bool) (name : List Char) : List Char → Option (List Char × List Char)
  | [] => none
  | c :: t =>
    if startsWithClose ci name (c :: t) then
      some ([], (c :: t).drop (name.length + 3))
    else
      match findClose ci name t with
      | some (body, rest) => some (c :: body, rest)
      | none => none

/-- Try to match the tag pattern at the head of `l`; on success return the
tag name, the (lazy, earliest-close) body, and the text after the match. -/
def matchTagAt (ci : Bool) (l : List Char) : Option (List Char × List Char × List Char) :=
  match l with
  | '<' :: t =>
    let name := t.takeWhile notSlashGt
    match t.dropWhile notSlashGt with
    | '>' :: u =>
      if name.isEmpty then none
      else
        match findClose ci name u with
        | some (body, rest) => some (name, body, rest)
        | none => none
    | _ => none
  | _ => none

/-- Fuelled left-to-right non-overlapping scan: `re.findall(tag_pattern, ·)`. -/
def tagMatchesF (ci : Bool) : Nat → List Char → List (List Char × List Char)
  | 0, _ => []
  | _ + 1, [] => []
  | fuel + 1, c :: t =>
    match matchTagAt ci (c :: t) with
    | some (name, body, rest) => (name, body) :: tagMatchesF ci fuel rest
    | none => tagMatchesF ci fuel t

/-- `re.findall(tag_pattern, content, re.DOTALL | re.IGNORECASE)` when
`ci = true`; the same scan case-sensitively when `ci = false`. -/
def tagMatches (ci : Bool) (l : List Char) : List (List Char × List Char) :=
  tagMatchesF ci l.length l

/-- Fuelled scan for `re.sub(tag_pattern, '', content, flags=re.DOTALL)`:
drop every matched span, keep everything else. -/
def removeTagsF (ci : Bool) : Nat → List Char → List Char
  | 0, _ => []
  | _ + 1, [] => []
  | fuel + 1, c :: t =>
    match matchTagAt ci (c :: t) with
    | some (_, _, rest) => removeTagsF ci fuel rest
    | none => c :: removeTagsF ci fuel t

/-- `re.sub(tag_pattern, '', content, flags=re.DOTALL)` (case-sensitive:
the source passes no `re.IGNORECASE` here). -/
def removeTags (ci : Bool) (l : List Char) : List Char := removeTagsF ci l.length l

/-! ## The bracket-section pattern `\[([^:]+):.*?\]`

`parse_scratchpad_sections` uses `re.findall(r'\[([^:]+):.*?\]', content)`
(no `re.DOTALL`, so `.` does not cross newlines).  At a `[` the greedy
`[^:]+` necessarily ends at the first following colon, and the lazy `.*?`
ends at the first following `]` provided no newline intervenes. -/

/-- Match `\[([^:]+):.*?\]` at the head of `l`; return the label (group 1)
and the remainder after the match. -/
def matchBracketAt (l : List Char) : Option (List Char × List Char) :=
  match l with
  | '[' :: t =>
    let label := t.takeWhile notColon
    match t.dropWhile notColon with
    | ':' :: u =>
      if label.isEmpty then none
      else
        match u.dropWhile notRbNl with
        | ']' :: v => some (label, v)
        | _ => none
    | _ => none
  | _ => none

/-- Fuelled scan for `re.findall(r'\[([^:]+):.*?\]', content)`. -/
def bracketLabelsF : Nat → List Char → List (List Char)
  | 0, _ => []
  | _ + 1, [] => []
  | fuel + 1, c :: t =>
    match matchBracketAt (c :: t) with
    | some (label, rest) => label :: bracketLabelsF fuel rest
    | none => bracketLabelsF fuel t

/-- `re.findall(r'\[([^:]+):.*?\]', content)`. -/
def bracketLabels (l : List Char) : List (List Char) := bracketLabelsF l.length l

/-- `parse_scratchpad_sections`: the extracted labels, each stripped. -/
def parse_scratchpad_sections (l : List Char) : List String :=
  (bracketLabels l).map (fun s => ⟨pyStrip s⟩)

/-! ## The nested-tag check `re.search(r'<[^/>]+>.*?</[^>]+>', ·, re.DOTALL)` -/

/-- Is there an open-tag-like token `<[^/>]+>` at the head of `l`? -/
def openLikeAt (l : List Char) : Bool :=
  match l with
  | '<' :: t =>
    match t.dropWhile notSlashGt with
    | '>' :: _ => !(t.takeWhile notSlashGt).isEmpty
    | _ => false
  | _ => false

/-- The text following the `>` of an open-tag-like token at the head. -/
def openLikeRest (l : List Char) : List Char :=
  match l with
  | '<' :: t =>
    match t.dropWhile notSlashGt with
    | '>' :: u => u
    | _ => []
  | _ => []

/-- Is there a close-tag-like token `</[^>]+>` at the head of `l`? -/
def closeLikeAt (l : List Char) : Bool :=
  match l with
  | '<' :: '/' :: t =>
    !(t.takeWhile notGt).isEmpty &&
      !(t.dropWhile notGt).isEmpty
  | _ => false

/-- Does `p` hold at some suffix of `l` (i.e. at some scan position)? -/
def anySuffix (p : List Char → Bool) : List Char → Bool
  | [] => p []
  | c :: t => p (c :: t) || anySuffix p t

/-- `bool(re.search(r'<[^/>]+>.*?</[^>]+>', l, re.DOTALL))`: some open-like
token is followed, after its `>`, by some close-like token. -/
def hasXmlPattern (l : List Char) : Bool :=
  anySuffix (fun s => openLikeAt s && anySuffix closeLikeAt (openLikeRest s)) l

/-! ## Remaining pieces of `parse_xml_to_yaml` -/

/-- Fuelled scan for `re.sub(r'-{3,}', '', remaining)`: greedy `-{3,}`
consumes each maximal run of three or more dashes. -/
def removeDashRunsF : Nat → List Char → List Char
  | 0, _ => []
  | _ + 1, [] => []
  | fuel + 1, c :: t =>
    if c = '-' && 3 ≤ ((c :: t).takeWhile isDash).length then
      removeDashRunsF fuel ((c :: t).dropWhile isDash)
    else
      c :: removeDashRunsF fuel t

/-- `re.sub(r'-{3,}', '', remaining)`. -/
def removeDashRuns (l : List Char) : List Char := removeDashRunsF l.length l

/-- The leftover text handled after the tag loop: remove the (case-sensitive)
tag matches, strip, remove dash runs, strip, and `clean_text` the result. -/
def remainingText (content : List Char) : List Char :=
  cleanTextL (pyStrip (removeDashRuns (pyStrip (removeTags false content))))

/-- Prefix group of `re.search(r'^(.+?)```', tag_content, re.DOTALL)`: the
text before the first occurrence of three backticks, provided that
occurrence starts at index at least one (the lazy `.+?` needs a character). -/
def findTicks : List Char → Option (List Char)
  | '`' :: '`' :: '`' :: _ => some []
  | [] => none
  | [_] => none
  | [_, _] => none
  | c :: t => (findTicks t).map (fun p => c :: p)

/-- `re.search(r'^(.+?)```', tag_content, re.DOTALL)`, returning group 1. -/
def instructionsMatch : List Char → Option (List Char)
  | [] => none
  | c :: t => (findTicks t).map (fun p => c :: p)

/-- Normalized tag key: `tag_name.strip().lower().replace(' ', '_')`. -/
def normTag (nm : List Char) : String :=
  ⟨(pyLower (pyStrip nm)).map (fun c => if c = ' ' then '_' else c)⟩

/-- The bracket-template node built in `parse_xml_to_yaml`'s `elif` branch
for a stripped tag body `tc`: `{format, sections, usage?, template}`. -/
def bracketTemplateNode (tc : List Char) : PyVal :=
  let sections := parse_scratchpad_sections tc
  let base := dictSet (dictSet [] "format" (.str "bracketed_sections"))
    "sections" (.strlist sections)
  let withUsage :=
    match instructionsMatch tc with
    | some g =>
      let instr := cleanTextL g
      if instr.isEmpty then base else dictSet base "usage" (.str ⟨instr⟩)
    | none => base
  .dict (dictSet withUsage "template" (.str ⟨cleanTextL tc⟩))

/-- Fuelled `parse_xml_to_yaml`.  The recursive call on a nested tag body
uses one unit of fuel; since each body is strictly shorter than its
enclosing text, fuel `content.length` always suffices (proved below). -/
def parseF : Nat → List Char → PyVal
  | 0, _ => .dict []
  | fuel + 1, content =>
    let ms := tagMatches true content
    if ms.isEmpty then
      if content.contains '[' && content.contains ']' then
        let sections := parse_scratchpad_sections content
        if sections.isEmpty then .dict [("content", .str ⟨cleanTextL content⟩)]
        else
          .dict [("sections", .strlist sections),
                 ("raw_format", .str ⟨cleanTextL content⟩)]
      else .dict [("content", .str ⟨cleanTextL content⟩)]
    else
      let result := ms.foldl (fun res m =>
        let tc := pyStrip m.2
        dictSet res (normTag m.1)
          (if hasXmlPattern tc then parseF fuel tc
           else if tc.contains '[' && containsSub [']', ':'] tc then
             bracketTemplateNode tc
           else .str ⟨cleanTextL tc⟩)) []
      let remaining := remainingText content
      if remaining.isEmpty then .dict result
      else .dict (dictSet result "instructions" (.str ⟨remaining⟩))

/-- `parse_xml_to_yaml` on character lists.  Fuel `length + 1` dominates
the recursion depth: each recursive call is on a strictly shorter text. -/
def parseL (content : List Char) : PyVal := parseF (content.length + 1) content

/-- `parse_xml_to_yaml` from `convert_frameworks_to_proper_yaml.py`. -/
def parse_xml_to_yaml (s : String) : PyVal := parseL s.data

/-- The classification applied to one tag match's body inside the loop of
`parse_xml_to_yaml` (recursing through the top-level parser). -/
def classifyBody (body : List Char) : PyVal :=
  let tc := pyStrip body
  if hasXmlPattern tc then parseL tc
  else if tc.contains '[' && containsSub [']', ':'] tc then bracketTemplateNode tc
  else .str ⟨cleanTextL tc⟩

/-! ## `convert_framework` -/

/-- Python `k in v` for the membership tests of `convert_framework` (key
membership for dicts, substring for strings, element for lists; none of
these raise for our value types). -/
def pyIn (k : String) : PyVal → Bool
  | .str s => containsSub k.data s.data
  | .strlist l => l.contains k
  | .dict d => dictHas d k

/-- `convert_framework` from `convert_frameworks_to_proper_yaml.py`, on the
in-memory document (the YAML file read/write boundary is out of scope).
Returns `.ok (converted?, document')`; a `TypeError` raised by the Python
code (subscripting a non-dict `framework`, or regex-searching a non-string
`content`) is modelled as `.error`. -/
def convert_framework (data : PyVal) : Except String (Bool × PyVal) :=
  match data with
  | .dict d =>
    if ¬ pyIn "framework" (.dict d) then .ok (false, data)
    else
      let fw := (dictGet d "framework").getD (.str "")
      if ¬ pyIn "content" fw then .ok (false, data)
      else if pyIn "structure" fw then .ok (false, data)
      else
        match fw with
        | .dict fwd =>
          match dictGet fwd "content" with
          | some (.str content) =>
            let l := content.data
            let hasXml := hasXmlPattern l
            let hasBrackets := l.contains '[' && containsSub [']', ':'] l
            if ¬ (hasXml || hasBrackets) then .ok (false, data)
            else
              let fw3 := dictDel (dictSet (dictSet fwd "structure" (parseL l))
                "legacy_content" (.str content)) "content"
              .ok (true, .dict (dictSet d "framework" (.dict fw3)))
          | _ => .error "TypeError: expected str content"
        | _ => .error "TypeError: subscripted a non-dict framework"
  | _ => .ok (false, data)

/-! ## UTF-8 encoding and the `unicode_escape` codec

`_fix_escaped_content` unescapes each matched value with
`value.encode('utf-8').decode('unicode_escape')`. -/

/-- UTF-8 encoding of one code point. -/
def utf8Enc (c : Char) : List Nat :=
  let n := c.toNat
  if n < 0x80 then [n]
  else if n < 0x800 then [0xC0 + n / 64, 0x80 + n % 64]
  else if n < 0x10000 then [0xE0 + n / 4096, 0x80 + n / 64 % 64, 0x80 + n % 64]
  else [0xF0 + n / 262144, 0x80 + n / 4096 % 64, 0x80 + n / 64 % 64, 0x80 + n % 64]

/-- `str.encode('utf-8')` as a byte list. -/
def utf8Bytes (l : List Char) : List Nat := (l.map utf8Enc).flatten

/-- Range check shared by the `\x`, `\u` and `\U` escapes: Python raises
on values above `0x10FFFF`, and Lean's `Char` additionally cannot hold
lone surrogates (see `unicodeEscape`). -/
def checkCodePoint (n : Nat) : Except String Nat :=
  if (0xD800 ≤ n && n ≤ 0xDFFF) || 0x10FFFF < n then
    .error "UnicodeDecodeError: illegal Unicode character"
  else .ok n

/-- Hexadecimal digit value. -/
def hexVal (b : Nat) : Option Nat :=
  if 48 ≤ b && b ≤ 57 then some (b - 48)
  else if 97 ≤ b && b ≤ 102 then some (b - 87)
  else if 65 ≤ b && b ≤ 70 then some (b - 55)
  else none

/-- Octal digit value. -/
def octVal (b : Nat) : Option Nat :=
  if 48 ≤ b && b ≤ 55 then some (b - 48) else none

/-- `bytes.decode('unicode_escape')`.  Non-escape bytes decode as Latin-1;
recognized escapes are the Python ones (`\newline`, `\\`, `\'`, `\"`,
`\a\b\f\n\r\t\v`, up to three octal digits, `\xHH`, `\uHHHH`,
`\UHHHHHHHH`); an unknown escape keeps the backslash and the byte;
a malformed escape raises `UnicodeDecodeError` (modelled as `.error`).
Two peripheral deviations, both documented here because Lean's `Char`
cannot hold them: `\N{NAME}` lookups and escapes denoting lone surrogates
are modelled as errors. -/
def unicodeEscape : List Nat → Except String (List Char)
  | [] => .ok []
  | b :: t =>
    if b ≠ 92 then (unicodeEscape t).map (fun r => Char.ofNat b :: r)
    else
      match t with
      | [] => .error "UnicodeDecodeError: backslash at end of string"
      | e :: u =>
        if e = 10 then unicodeEscape u
        else if e = 92 then (unicodeEscape u).map (fun r => '\\' :: r)
        else if e = 39 then (unicodeEscape u).map (fun r => '\'' :: r)
        else if e = 34 then (unicodeEscape u).map (fun r => '"' :: r)
        else if e = 97 then (unicodeEscape u).map (fun r => Char.ofNat 7 :: r)
        else if e = 98 then (unicodeEscape u).map (fun r => Char.ofNat 8 :: r)
        else if e = 102 then (unicodeEscape u).map (fun r => Char.ofNat 12 :: r)
        else if e = 110 then (unicodeEscape u).map (fun r => '\n' :: r)
        else if e = 114 then (unicodeEscape u).map (fun r => Char.ofNat 13 :: r)
        else if e = 116 then (unicodeEscape u).map (fun r => '\t' :: r)
        else if e = 118 then (unicodeEscape u).map (fun r => Char.ofNat 11 :: r)
        else
          match octVal e with
          | some d1 =>
            (match u with
             | b2 :: b3 :: v =>
               (match octVal b2, octVal b3 with
                | some d2, some d3 =>
                  (unicodeEscape v).map (fun r => Char.ofNat (d1 * 64 + d2 * 8 + d3) :: r)
                | some d2, none =>
                  (unicodeEscape (b3 :: v)).map (fun r => Char.ofNat (d1 * 8 + d2) :: r)
                | none, _ =>
                  (unicodeEscape (b2 :: b3 :: v)).map (fun r => Char.ofNat d1 :: r))
             | [b2] =>
               (match octVal b2 with
                | some d2 => (unicodeEscape []).map (fun r => Char.ofNat (d1 * 8 + d2) :: r)
                | none => (unicodeEscape [b2]).map (fun r => Char.ofNat d1 :: r))
             | [] => .ok [Char.ofNat d1])
          | none =>
            if e = 120 then
              match u with
              | h1 :: h2 :: v =>
                (match hexVal h1, hexVal h2 with
                 | some d1, some d2 =>
                   (checkCodePoint (d1 * 16 + d2)).bind (fun n =>
                     (unicodeEscape v).map (fun r => Char.ofNat n :: r))
                 | _, _ => .error "UnicodeDecodeError: truncated \\xXX escape")
              | _ => .error "UnicodeDecodeError: truncated \\xXX escape"
            else if e = 117 then
              match u with
              | h1 :: h2 :: h3 :: h4 :: v =>
                (match hexVal h1, hexVal h2, hexVal h3, hexVal h4 with
                 | some d1, some d2, some d3, some d4 =>
                   (checkCodePoint (d1 * 4096 + d2 * 256 + d3 * 16 + d4)).bind (fun n =>
                     (unicodeEscape v).map (fun r => Char.ofNat n :: r))
                 | _, _, _, _ => .error "UnicodeDecodeError: truncated \\uXXXX escape")
              | _ => .error "UnicodeDecodeError: truncated \\uXXXX escape"
            else if e = 85 then
              match u with
              | h1 :: h2 :: h3 :: h4 :: h5 :: h6 :: h7 :: h8 :: v =>
                (match hexVal h1, hexVal h2, hexVal h3, hexVal h4,
                       hexVal h5, hexVal h6, hexVal h7, hexVal h8 with
                 | some d1, some d2, some d3, some d4, some d5, some d6, some d7, some d8 =>
                   (checkCodePoint (((((((d1 * 16 + d2) * 16 + d3) * 16 + d4) * 16 + d5)
                     * 16 + d6) * 16 + d7) * 16 + d8)).bind (fun n =>
                     (unicodeEscape v).map (fun r => Char.ofNat n :: r))
                 | _, _, _, _, _, _, _, _ =>
                   .error "UnicodeDecodeError: truncated \\UXXXXXXXX escape")
              | _ => .error "UnicodeDecodeError: truncated \\UXXXXXXXX escape"
            else if e = 78 then .error "UnicodeDecodeError: \\N escapes unmodelled"
            else (unicodeEscape u).map (fun r => '\\' :: Char.ofNat e :: r)

/-! ## `_fix_escaped_content`

The pattern is `(\s+)([a-zA-Z0-9_]+:\s*)"([^"]*(?:\\[nt"])[^"]*)"` with
`re.DOTALL` (no effect: the pattern has no `.`).  At a start position the
`\s+` must cover a whitespace run followed by a word run, `:`,
optional whitespace and `"`.  Inside the quotes, let `q1` be the first
quote after the opening one; by greedy preference the engine first tries
the escape `\"` just before `q1` (the value then extends to the next quote
`q2`), and otherwise uses the rightmost `\n`/`\t` escape before `q1` (the
value then ends at `q1`). -/

/-- Is some two-character escape `\n` or `\t` present (as adjacent
characters) in `l`? -/
def hasNTEscape : List Char → Bool
  | a :: b :: t => (a = '\\' && (b = 'n' || b = 't')) || hasNTEscape (b :: t)
  | _ => false

/-- Try to match `_fix_escaped_content`'s pattern at the head of `l`; on
success return the indent (group 1), key (group 2), value (group 3) and the
remainder after the match. -/
def matchEscAt (l : List Char) :
    Option (List Char × List Char × List Char × List Char) :=
  match l with
  | [] => none
  | c :: _ =>
    if ¬ isPySpace c then none
    else
      let ind := l.takeWhile isPySpace
      let r1 := l.dropWhile isPySpace
      let w := r1.takeWhile isWordChar
      if w.isEmpty then none
      else
        match r1.dropWhile isWordChar with
        | ':' :: r3 =>
          let sp := r3.takeWhile isPySpace
          (match r3.dropWhile isPySpace with
           | '"' :: r4 =>
             let v1 := r4.takeWhile notQuote
             (match r4.dropWhile notQuote with
              | '"' :: r5 =>
                let key := w ++ ':' :: sp
                let optionB : Option (List Char × List Char × List Char × List Char) :=
                  if hasNTEscape v1 then some (ind, key, v1, r5) else none
                if v1.getLast? = some '\\' then
                  let v2 := r5.takeWhile notQuote
                  (match r5.dropWhile notQuote with
                   | '"' :: r6 => some (ind, key, v1 ++ '"' :: v2, r6)
                   | _ => optionB)
                else optionB
              | _ => none)
           | _ => none)
        | _ => none

/-- The replacement built by `replace_escapes` from the matched groups and
the unescaped value: `indent+key+' |'` followed by each line of the value
indented two further spaces, joined with newlines. -/
def buildBlock (ind key processed : List Char) : List Char :=
  joinNl ((ind ++ key ++ [' ', '|']) ::
    (splitNl processed).map (fun line => ind ++ ' ' :: ' ' :: line))

/-- Fuelled scan for `re.sub(pattern, replace_escapes, content)`.  Returns
the number of replacements made (each bumps `stats['escapes_fixed']`)
together with the rewritten text, or the propagated decode error.  When a
value fails to decode, `replace_escapes` raises before counting that match
(the `except SyntaxError` fallback in the source is unreachable: the
decode raises `UnicodeDecodeError`). -/
def subEscF : Nat → List Char → Nat × Except String (List Char)
  | 0, _ => (0, .ok [])
  | _ + 1, [] => (0, .ok [])
  | fuel + 1, c :: t =>
    match matchEscAt (c :: t) with
    | some (ind, key, val, rest) =>
      (match unicodeEscape (utf8Bytes val) with
       | .error e => (0, .error e)
       | .ok processed =>
         let r := subEscF fuel rest
         (r.1 + 1, r.2.map (fun out => buildBlock ind key processed ++ out)))
    | none =>
      let r := subEscF fuel t
      (r.1, r.2.map (fun out => c :: out))

/-- `_fix_escaped_content`: the regex rewrite together with the number of
`escapes_fixed` increments. -/
def fix_escaped_content (l : List Char) : Nat × Except String (List Char) :=
  subEscF l.length l

/-! ## The `YAMLRemediator` pipeline -/

/-- The non-breaking space `U+00A0`. -/
def nbspChar : Char := Char.ofNat 0xa0

/-- Fix 1 of `fix_yaml_file`: `content.replace(' ', ' ')` (applied
when an NBSP is present; applying it unconditionally is the same text). -/
def nbspFix (l : List Char) : List Char :=
  l.map (fun c => if c = nbspChar then ' ' else c)

/-- The guard of fix 2: `content.strip().startswith('---')`. -/
def stripStartsMarker (l : List Char) : Bool :=
  ['-', '-', '-'].isPrefixOf (pyStrip l)

/-- Fix 2 of `fix_yaml_file`: prepend `'---\n'` when the stripped content
does not start with the document marker. -/
def markerFix (l : List Char) : List Char :=
  if ¬ stripStartsMarker l then '-' :: '-' :: '-' :: '\n' :: l else l

/-- The pure text pipeline of `fix_yaml_file` (fixes 1–3 in order), with
the propagated decode error if `replace_escapes` raises. -/
def remediateL (l : List Char) : Except String (List Char) :=
  (fix_escaped_content (markerFix (nbspFix l))).2

/-- The Compliance Remediator's text pipeline on strings. -/
def remediate (s : String) : Except String String :=
  (remediateL s.data).map (fun l => ⟨l⟩)

/-- The `stats` dictionary of `YAMLRemediator`. -/
structure RemStats where
  files_processed : Nat := 0
  files_fixed : Nat := 0
  doc_markers_added : Nat := 0
  escapes_fixed : Nat := 0
  values_quoted : Nat := 0
  nbsp_removed : Nat := 0
  errors : List String := []
  deriving Repr, DecidableEq

/-- `YAMLRemediator.fix_yaml_file` on one file, with the file read modelled
as `Except` (error message, or content read).  Any exception — unreadable
file or a decode error inside `_fix_escaped_content` — is caught by the
`except Exception` arm, which appends one message to `errors` and returns
`False`; the `finally` arm bumps `files_processed` on every path.  (The
Python message embeds the file path; we keep the underlying message.) -/
def fix_yaml_file (st : RemStats) (file : Except String String) : RemStats × Bool :=
  match file with
  | .error e =>
    ({ st with errors := st.errors ++ [e],
               files_processed := st.files_processed + 1 }, false)
  | .ok content =>
    let l := content.data
    let st1 := if l.contains nbspChar then
        { st with nbsp_removed := st.nbsp_removed + 1 } else st
    let c1 := nbspFix l
    let st2 := if ¬ stripStartsMarker c1 then
        { st1 with doc_markers_added := st1.doc_markers_added + 1 } else st1
    let c2 := markerFix c1
    let res := fix_escaped_content c2
    let st3 := { st2 with escapes_fixed := st2.escapes_fixed + res.1 }
    match res.2 with
    | .error e =>
      ({ st3 with errors := st3.errors ++ [e],
                  files_processed := st3.files_processed + 1 }, false)
    | .ok out =>
      if out ≠ l then
        ({ st3 with files_fixed := st3.files_fixed + 1,
                    files_processed := st3.files_processed + 1 }, true)
      else
        ({ st3 with files_processed := st3.files_processed + 1 }, false)

/-- Does `fix_yaml_file` take its error arm on this file? -/
def fixFails (file : Except String String) : Bool :=
  match file with
  | .error _ => true
  | .ok content => (remediateL content.data).isOk = false

/-- `YAMLRemediator.process_directory`: fold `fix_yaml_file` over the
(sorted) list of files, threading the statistics. -/
def process_directory (st : RemStats) (files : List (Except String String)) :
    RemStats :=
  files.foldl (fun s f => (fix_yaml_file s f).1) st

/-! ## `add_doc_marker` -/

/-- `add_doc_marker` from `add_yaml_doc_markers.py`: the transformation it
applies to a file's text, together with its return value (`True` iff the
file was modified; the `IOError` arm concerns the file system and is out
of scope). -/
def add_doc_marker (s : String) : String × Bool :=
  if stripStartsMarker s.data then (s, false)
  else (⟨'-' :: '-' :: '-' :: '\n' :: s.data⟩, true)

/-- Lookup inside a parsed node (for stating properties of `parse`'s
dictionaries). -/
def pyGet (v : PyVal) (k : String) : Option PyVal :=
  match v with
  | .dict d => dictGet d k
  | _ => none

/-- The value stored last for key `k` by a sequence of assignments. -/
def lastVal (k : String) : List (String × PyVal) → Option PyVal
  | [] => none
  | (k', v) :: rest =>
    match lastVal k rest with
    | some w => some w
    | none => if k' = k then some v else none

/-- Does `_fix_escaped_content`'s pattern match anywhere in `l`? -/
def hasEscMatch : List Char → Bool
  | [] => false
  | c :: t => (matchEscAt (c :: t)).isSome || hasEscMatch t

/-- Helper predicate for the idempotence proof of `clean_text`: every
whitespace-only contiguous span of the text contains at most two
newlines (i.e. the blank-line-collapse scan finds nothing to do). -/
def wsRunsOK (l : List Char) : Prop :=
  ∀ w, w <:+: l → (∀ c ∈ w, isPySpace c = true) → w.count '\n' ≤ 2

/-- Helper relation for the idempotence proof of `clean_text`:
`Erase a b` holds when `b` is `a` with some non-newline whitespace
characters deleted (what per-line right-stripping does). -/
inductive Erase : List Char → List Char → Prop
  | nil : Erase [] []
  | keep (c : Char) {t t' : List Char} : Erase t t' → Erase (c :: t) (c :: t')
  | drop (c : Char) {t t' : List Char} :
      isPySpace c = true → c ≠ '\n' → Erase t t' → Erase (c :: t) t'

/-- Helper pairwise predicate: no non-newline whitespace character stands
immediately before a newline (every line is right-stripped, stated at the
character level). -/
def noTrailWs (l : List Char) : Prop :=
  List.Chain' (fun a b => b = '\n' → a = '\n' ∨ isPySpace a = false) l

/-! ## Basic length lemmas for the scanners -/

theorem takeWhile_lt_of_mem {p : Char → Bool} {l : List Char} {a : Char}
    (ha : a ∈ l) (hpa : p a = false) : (l.takeWhile p).length < l.length := by
  induction l with
  | nil => cases ha
  | cons x xs ih =>
    by_cases hx : p x
    · rcases List.mem_cons.mp ha with rfl | ha'
      · rw [hx] at hpa; cases hpa
      · simpa [List.takeWhile_cons, hx, Nat.succ_lt_succ_iff] using ih ha'
    · simp [List.takeWhile_cons, Bool.of_not_eq_true hx]

theorem length_takeWhile_add_dropWhile (p : Char → Bool) (l : List Char) :
    (l.takeWhile p).length + (l.dropWhile p).length = l.length := by
  induction l with
  | nil => rfl
  | cons x xs ih =>
    by_cases hx : p x
    · simp only [List.takeWhile_cons, List.dropWhile_cons, hx, if_pos, List.length_cons]
      omega
    · rw [List.takeWhile_cons, List.dropWhile_cons, if_neg hx, if_neg hx]
      simp

theorem wsTail_lt_of_trigger {l : List Char} (h : blankTrigger l = true) :
    (wsTailAfterNl l ++ l.dropWhile isPySpace).length < l.length := by
  rcases l with _ | ⟨c, t⟩
  · simp [blankTrigger] at h
  · have hcount : 3 ≤ ((c :: t).takeWhile isPySpace).count '\n' := by
      simp only [blankTrigger, Bool.and_eq_true, decide_eq_true_eq] at h
      exact_mod_cast h.2
    have hmem : '\n' ∈ ((c :: t).takeWhile isPySpace).reverse := by
      rw [List.mem_reverse]
      exact List.count_pos_iff.mp (lt_of_lt_of_le (by norm_num) hcount)
    have hlt : (wsTailAfterNl (c :: t)).length <
        ((c :: t).takeWhile isPySpace).length := by
      have h2 := @takeWhile_lt_of_mem notNl _ _ hmem (by simp [notNl])
      rw [wsTailAfterNl, List.length_reverse]
      calc (((c :: t).takeWhile isPySpace).reverse.takeWhile notNl).length
          < ((c :: t).takeWhile isPySpace).reverse.length := h2
        _ = ((c :: t).takeWhile isPySpace).length := List.length_reverse _
    have hsum := length_takeWhile_add_dropWhile isPySpace (c :: t)
    rw [List.length_append]
    omega

theorem startsWithClose_go_length {ci : Bool} {name rest : List Char}
    (h : startsWithClose.go ci name rest = true) :
    name.length + 1 ≤ rest.length := by
  induction name generalizing rest with
  | nil =>
    rcases rest with _ | ⟨c, cs⟩
    · simp [startsWithClose.go] at h
    · simp
  | cons n ns ih =>
    rcases rest with _ | ⟨c, cs⟩
    · simp [startsWithClose.go] at h
    · simp only [startsWithClose.go, Bool.and_eq_true] at h
      have := ih h.2
      simp only [List.length_cons]
      omega

theorem startsWithClose_length {ci : Bool} {name l : List Char}
    (h : startsWithClose ci name l = true) : name.length + 3 ≤ l.length := by
  rcases l with _ | ⟨a, l⟩
  · simp [startsWithClose] at h
  rcases l with _ | ⟨b, rest⟩
  · by_cases ha : a = '<' <;> simp [startsWithClose, ha] at h
  by_cases ha : a = '<'
  · by_cases hb : b = '/'
    · subst ha hb
      have := @startsWithClose_go_length ci name rest
        (by simpa [startsWithClose] using h)
      simp only [List.length_cons]
      omega
    · subst ha; simp [startsWithClose, hb] at h
  · simp [startsWithClose, ha] at h

theorem findClose_length {ci : Bool} {name l body rest : List Char}
    (h : findClose ci name l = some (body, rest)) :
    body.length + name.length + 3 + rest.length = l.length := by
  induction l generalizing body with
  | nil => simp [findClose] at h
  | cons c t ih =>
    by_cases hs : startsWithClose ci name (c :: t)
    · have hlen := startsWithClose_length hs
      simp only [findClose, hs, if_pos, Option.some.injEq, Prod.mk.injEq] at h
      obtain ⟨rfl, rfl⟩ := h
      rw [List.length_drop]
      simp only [List.length_nil]
      simp only [List.length_cons] at hlen ⊢
      omega
    · simp only [findClose, hs] at h
      rcases hfc : findClose ci name t with _ | ⟨b2, r2⟩ <;> rw [hfc] at h
      · simp at h
      · simp only [Bool.false_eq_true, if_false, Option.some.injEq, Prod.mk.injEq] at h
        obtain ⟨rfl, rfl⟩ := h
        have := ih hfc
        simp only [List.length_cons]
        omega

theorem matchTagAt_length {ci : Bool} {l name body rest : List Char}
    (h : matchTagAt ci l = some (name, body, rest)) :
    body.length + rest.length + 2 * name.length + 5 = l.length := by
  unfold matchTagAt at h
  split at h
  next t =>
    simp only at h
    split at h
    next u heq =>
      split at h
      next => cases h
      next hemp =>
        split at h
        next b2 r2 hfc =>
          simp only [Option.some.injEq, Prod.mk.injEq] at h
          obtain ⟨rfl, rfl, rfl⟩ := h
          have hfcl := findClose_length hfc
          have hsum := length_takeWhile_add_dropWhile notSlashGt t
          rw [heq] at hsum
          simp only [List.length_cons] at hsum ⊢
          omega
        next => cases h
    next => cases h
  next => cases h

theorem matchTagAt_body_lt {ci : Bool} {l name body rest : List Char}
    (h : matchTagAt ci l = some (name, body, rest)) : body.length < l.length := by
  have := matchTagAt_length h
  omega

theorem matchTagAt_rest_lt {ci : Bool} {l name body rest : List Char}
    (h : matchTagAt ci l = some (name, body, rest)) : rest.length < l.length := by
  have := matchTagAt_length h
  omega

theorem tagMatchesF_nil (ci : Bool) (f : Nat) : tagMatchesF ci f [] = [] := by
  cases f <;> rfl

theorem tagMatchesF_congr (ci : Bool) :
    ∀ f1 : Nat, ∀ {f2 : Nat} {l : List Char}, l.length ≤ f1 → l.length ≤ f2 →
      tagMatchesF ci f1 l = tagMatchesF ci f2 l := by
  intro f1
  induction f1 with
  | zero =>
    intro f2 l h1 _
    rw [List.length_eq_zero.mp (Nat.le_zero.mp h1)]
    rw [tagMatchesF_nil, tagMatchesF_nil]
  | succ f ih =>
    intro f2 l h1 h2
    rcases l with _ | ⟨c, t⟩
    · rw [tagMatchesF_nil, tagMatchesF_nil]
    rcases f2 with _ | f2'
    · simp at h2
    simp only [tagMatchesF]
    simp only [List.length_cons] at h1 h2
    rcases hm : matchTagAt ci (c :: t) with _ | ⟨nm, body, rest⟩
    · have hlen : t.length ≤ f := by omega
      have hlen2 : t.length ≤ f2' := by omega
      exact ih hlen hlen2
    · have hr := matchTagAt_rest_lt hm
      simp only [List.length_cons] at hr
      have hlen : rest.length ≤ f := by omega
      have hlen2 : rest.length ≤ f2' := by omega
      exact congrArg (List.cons (nm, body)) (ih hlen hlen2)

/-- Every matched body is strictly shorter than the scanned text. -/
theorem tagMatches_body_lt (ci : Bool) :
    ∀ f : Nat, ∀ {l : List Char} {m : List Char × List Char}, l.length ≤ f →
      m ∈ tagMatchesF ci f l → m.2.length < l.length := by
  intro f
  induction f with
  | zero =>
    intro l m _ hm
    rcases l with _ | _ <;> cases hm
  | succ f ih =>
    intro l m h1 hm
    rcases l with _ | ⟨c, t⟩
    · cases hm
    simp only [tagMatchesF] at hm
    simp only [List.length_cons] at h1
    rcases hmt : matchTagAt ci (c :: t) with _ | ⟨nm, body, rest⟩ <;> rw [hmt] at hm
    · have hle : t.length ≤ f := by omega
      have := ih hle hm
      simp only [List.length_cons]
      omega
    · rcases List.mem_cons.mp hm with rfl | hm'
      · exact matchTagAt_body_lt hmt
      · have hr := matchTagAt_rest_lt hmt
        simp only [List.length_cons] at hr ⊢
        have hrest : rest.length ≤ f := by omega
        have := ih hrest hm'
        omega

theorem pyRstrip_length_le (l : List Char) : (pyRstrip l).length ≤ l.length := by
  unfold pyRstrip
  rw [List.length_reverse]
  calc (l.reverse.dropWhile isPySpace).length ≤ l.reverse.length :=
        (List.dropWhile_sublist _).length_le
    _ = l.length := List.length_reverse _

theorem pyStrip_length_le (l : List Char) : (pyStrip l).length ≤ l.length := by
  unfold pyStrip pyLstrip
  calc (pyRstrip (l.dropWhile isPySpace)).length ≤ (l.dropWhile isPySpace).length :=
        pyRstrip_length_le _
    _ ≤ l.length := (List.dropWhile_sublist _).length_le

theorem parseF_congr :
    ∀ f1 f2 : Nat, ∀ l : List Char, l.length < f1 → l.length < f2 →
      parseF f1 l = parseF f2 l := by
  intro f1
  induction f1 with
  | zero => intro f2 l h1 _; exact absurd h1 (Nat.not_lt_zero _)
  | succ f ih =>
    intro f2 l h1 h2
    rcases f2 with _ | f2'
    · exact absurd h2 (Nat.not_lt_zero _)
    simp only [parseF]
    by_cases hms : (tagMatches true l).isEmpty
    · simp only [hms, if_true]
    · simp only [Bool.of_not_eq_true hms, Bool.false_eq_true, if_false]
      have hfold :
          (tagMatches true l).foldl (fun res m =>
            dictSet res (normTag m.1)
              (if hasXmlPattern (pyStrip m.2) then parseF f (pyStrip m.2)
               else if (pyStrip m.2).contains '[' &&
                   containsSub [']', ':'] (pyStrip m.2) then
                 bracketTemplateNode (pyStrip m.2)
               else .str ⟨cleanTextL (pyStrip m.2)⟩)) [] =
          (tagMatches true l).foldl (fun res m =>
            dictSet res (normTag m.1)
              (if hasXmlPattern (pyStrip m.2) then parseF f2' (pyStrip m.2)
               else if (pyStrip m.2).contains '[' &&
                   containsSub [']', ':'] (pyStrip m.2) then
                 bracketTemplateNode (pyStrip m.2)
               else .str ⟨cleanTextL (pyStrip m.2)⟩)) [] := by
        apply List.foldl_ext
        intro res m hm
        have hb : m.2.length < l.length :=
          tagMatches_body_lt true l.length (le_refl _) hm
        have htc : (pyStrip m.2).length < l.length :=
          lt_of_le_of_lt (pyStrip_length_le _) hb
        by_cases hx : hasXmlPattern (pyStrip m.2)
        · simp only [hx, if_true]
          exact congrArg (dictSet res (normTag m.1))
            (ih f2' (pyStrip m.2) (by omega) (by omega))
        · simp only [Bool.of_not_eq_true hx, Bool.false_eq_true, if_false]
      rw [hfold]

/-! ## Dictionary lemmas -/

theorem dictGet_dictSet_self (d : List (String × PyVal)) (k : String) (v : PyVal) :
    dictGet (dictSet d k v) k = some v := by
  induction d with
  | nil => simp [dictSet, dictGet]
  | cons p rest ih =>
    obtain ⟨k', v'⟩ := p
    by_cases hk : k' = k
    · simp [dictSet, dictGet, hk]
    · simp [dictSet, dictGet, hk, ih]

theorem dictGet_dictSet_ne (d : List (String × PyVal)) {k k' : String} {v : PyVal}
    (h : k' ≠ k) : dictGet (dictSet d k v) k' = dictGet d k' := by
  have h' : ¬ (k = k') := fun hh => h hh.symm
  induction d with
  | nil => simp [dictSet, dictGet, h']
  | cons p rest ih =>
    obtain ⟨k0, v0⟩ := p
    by_cases hk : k0 = k
    · subst hk
      simp [dictSet, dictGet, h']
    · simp [dictSet, dictGet, hk, ih]

theorem dictGet_dictDel_self (d : List (String × PyVal)) (k : String) :
    dictGet (dictDel d k) k = none := by
  induction d with
  | nil => simp [dictDel, dictGet]
  | cons p rest ih =>
    obtain ⟨k0, v0⟩ := p
    by_cases hk : k0 = k
    · simpa [dictDel, hk] using ih
    · simpa [dictDel, dictGet, hk] using ih

theorem dictGet_dictDel_ne (d : List (String × PyVal)) {k k' : String}
    (h : k' ≠ k) : dictGet (dictDel d k) k' = dictGet d k' := by
  have h' : ¬ (k = k') := fun hh => h hh.symm
  induction d with
  | nil => simp [dictDel, dictGet]
  | cons p rest ih =>
    obtain ⟨k0, v0⟩ := p
    by_cases hk : k0 = k
    · subst hk
      simpa [dictDel, dictGet, h'] using ih
    · simp [dictDel, dictGet, hk, ih]

/-! ## Strip and marker lemmas -/

theorem pyRstrip_pre (l : List Char) : pyRstrip l <+: l := by
  unfold pyRstrip
  have h : l.reverse.dropWhile isPySpace <:+ l.reverse := List.dropWhile_suffix isPySpace
  have := List.reverse_prefix.mpr h
  simpa using this

theorem pyRstrip_cons_nonws {a : Char} (l : List Char) (h : isPySpace a = false) :
    pyRstrip (a :: l) = a :: pyRstrip l := by
  unfold pyRstrip
  rw [List.reverse_cons, List.dropWhile_append]
  by_cases hd : (l.reverse.dropWhile isPySpace).isEmpty
  · rw [if_pos hd]
    rw [List.isEmpty_iff] at hd
    simp [hd, h]
  · rw [if_neg hd]
    rw [List.isEmpty_iff] at hd
    simp [hd]

theorem pyLstrip_ws_append {W l : List Char} (hW : ∀ c ∈ W, isPySpace c = true) :
    pyLstrip (W ++ l) = pyLstrip l := by
  unfold pyLstrip
  rw [List.dropWhile_append]
  by_cases hd : (W.dropWhile isPySpace).isEmpty
  · rw [if_pos hd]
  · exfalso
    rw [List.dropWhile_eq_nil_iff.mpr hW] at hd
    simp at hd

/-- A text of the shape `whitespace ++ "---" ++ anything` passes the
`content.strip().startswith('---')` test. -/
theorem stripStartsMarker_of_decomp {W r : List Char}
    (hW : ∀ c ∈ W, isPySpace c = true) :
    stripStartsMarker (W ++ '-' :: '-' :: '-' :: r) = true := by
  unfold stripStartsMarker pyStrip
  rw [pyLstrip_ws_append hW]
  have hdash : isPySpace '-' = false := by decide
  unfold pyLstrip
  rw [List.dropWhile_cons_of_neg (by simp [hdash])]
  rw [pyRstrip_cons_nonws _ hdash, pyRstrip_cons_nonws _ hdash,
    pyRstrip_cons_nonws _ hdash]
  simp [List.isPrefixOf]

/-- Conversely, a text passing the test decomposes as whitespace, the
marker, and a remainder. -/
theorem stripStartsMarker_decomp {l : List Char}
    (h : stripStartsMarker l = true) :
    ∃ W r, (∀ c ∈ W, isPySpace c = true) ∧ l = W ++ '-' :: '-' :: '-' :: r := by
  unfold stripStartsMarker at h
  rw [List.isPrefixOf_iff_prefix] at h
  obtain ⟨y, hy⟩ := h
  have hpre : pyStrip l <+: pyLstrip l := pyRstrip_pre _
  obtain ⟨z, hz⟩ := hpre
  refine ⟨l.takeWhile isPySpace, y ++ z, fun c hc => List.mem_takeWhile_imp hc, ?_⟩
  have hsplit := List.takeWhile_append_dropWhile isPySpace l
  calc l = l.takeWhile isPySpace ++ l.dropWhile isPySpace := hsplit.symm
    _ = l.takeWhile isPySpace ++ '-' :: '-' :: '-' :: (y ++ z) := by
        have : pyLstrip l = '-' :: '-' :: '-' :: (y ++ z) := by
          rw [← hz, ← hy]
          simp
        rw [← this]
        rfl

theorem markerFix_marker (l : List Char) :
    stripStartsMarker (markerFix l) = true := by
  unfold markerFix
  by_cases h : stripStartsMarker l
  · rw [if_neg (by simp [h])]
    exact h
  · rw [if_pos (by simp [h])]
    have := @stripStartsMarker_of_decomp [] ('\n' :: l) (by simp)
    simpa using this

/-! ## Claims -/

/-- C3: the Structural Parser is total — it is a Lean function into
`PyVal`, not into an error monad, so every input string yields a Markup
Node and no parse error is possible (the kernel-checked termination of
`parseF`'s fuel recursion, with fuel proved sufficient in `parseF_congr`,
is the totality argument) — and deterministic: two evaluations on the same
input are the same tree. -/
theorem claim_C3 (t : String) :
    ∃ node : PyVal, parse_xml_to_yaml t = node ∧ parse_xml_to_yaml t = node :=
  ⟨parse_xml_to_yaml t, rfl, rfl⟩

/-- C6: a document whose `framework` mapping already has a `structure` key
is returned unconverted and unchanged, whether or not it has `content`. -/
theorem claim_C6 (d fwd : List (String × PyVal)) (v : PyVal)
    (hfw : dictGet d "framework" = some (.dict fwd))
    (hs : dictGet fwd "structure" = some v) :
    convert_framework (.dict d) = .ok (false, .dict d) := by
  unfold convert_framework
  dsimp only
  have h1 : pyIn "framework" (.dict d) = true := by
    simp [pyIn, dictHas, hfw]
  rw [if_neg (by simp [h1])]
  rw [hfw]
  simp only [Option.getD_some]
  by_cases hc : pyIn "content" (.dict fwd) = true
  · rw [if_neg (by simp [hc])]
    rw [if_pos (by simp [pyIn, dictHas, hs])]
  · rw [if_pos (by simp at hc ⊢; exact hc)]

/-- C6 witness. -/
theorem claim_C6_witness :
    convert_framework (.dict [("framework",
        .dict [("structure", .str "s"), ("content", .str "<a>x</a>")])]) =
      .ok (false, .dict [("framework",
        .dict [("structure", .str "s"), ("content", .str "<a>x</a>")])]) :=
  claim_C6 [("framework", .dict [("structure", .str "s"), ("content", .str "<a>x</a>")])]
    [("structure", .str "s"), ("content", .str "<a>x</a>")] (.str "s") rfl rfl

/-- C5: when the Document Conversion Driver succeeds, the new framework
mapping stores the original `content` string verbatim under
`legacy_content`, stores the Structural Parser's result under `structure`,
and no longer has a `content` key. -/
theorem claim_C5 (d fwd : List (String × PyVal)) (c : String) (data' : PyVal)
    (hfw : dictGet d "framework" = some (.dict fwd))
    (hc : dictGet fwd "content" = some (.str c))
    (h : convert_framework (.dict d) = .ok (true, data')) :
    ∃ fw' : List (String × PyVal),
      data' = .dict (dictSet d "framework" (.dict fw')) ∧
      dictGet fw' "legacy_content" = some (.str c) ∧
      dictGet fw' "structure" = some (parse_xml_to_yaml c) ∧
      dictGet fw' "content" = none := by
  unfold convert_framework at h
  dsimp only at h
  rw [if_neg (by simp [pyIn, dictHas, hfw])] at h
  rw [hfw] at h
  simp only [Option.getD_some] at h
  rw [if_neg (by simp [pyIn, dictHas, hc])] at h
  by_cases hs : pyIn "structure" (.dict fwd) = true
  · rw [if_pos hs] at h
    simp at h
  · rw [if_neg hs] at h
    rw [hc] at h
    dsimp only at h
    by_cases hx : (hasXmlPattern c.data ||
        (c.data.contains '[' && containsSub [']', ':'] c.data)) = true
    · rw [hx] at h
      simp only [not_true, if_false, Except.ok.injEq, Prod.mk.injEq, true_and] at h
      refine ⟨dictDel (dictSet (dictSet fwd "structure" (parseL c.data))
        "legacy_content" (.str c)) "content", h.symm, ?_, ?_, ?_⟩
      · rw [dictGet_dictDel_ne _ (by decide), dictGet_dictSet_self]
      · rw [dictGet_dictDel_ne _ (by decide),
          dictGet_dictSet_ne _ (by decide), dictGet_dictSet_self]
        rfl
      · exact dictGet_dictDel_self _ _
    · rw [if_pos (by simpa using hx)] at h
      simp at h

/-- C5 witness. -/
theorem claim_C5_witness :
    ∃ fw' : List (String × PyVal),
      (PyVal.dict (dictSet [("framework", PyVal.dict [("content", .str "<a>x</a>")])]
          "framework" (.dict fw'))) =
          .dict (dictSet [("framework", PyVal.dict [("content", .str "<a>x</a>")])]
          "framework" (.dict fw')) ∧
      dictGet fw' "legacy_content" = some (.str "<a>x</a>") ∧
      dictGet fw' "structure" = some (parse_xml_to_yaml "<a>x</a>") ∧
      dictGet fw' "content" = none := by
  obtain ⟨fw', h1, h2, h3, h4⟩ := claim_C5
    [("framework", .dict [("content", .str "<a>x</a>")])]
    [("content", .str "<a>x</a>")] "<a>x</a>"
    (.dict (dictSet [("framework", PyVal.dict [("content", .str "<a>x</a>")])]
      "framework" (.dict (dictDel (dictSet (dictSet [("content", .str "<a>x</a>")]
        "structure" (parseL "<a>x</a>".data)) "legacy_content" (.str "<a>x</a>"))
        "content"))))
    rfl rfl (by rfl)
  exact ⟨fw', rfl, h2, h3, h4⟩

/-- C8: the Start-Marker Enforcer (`add_doc_marker`, and fix 2 of the
Remediator's `fix_yaml_file`): when the stripped text does not begin with
`---`, the output is exactly `---`, a newline, and the unchanged input;
when it already does, the text is left untouched (no duplicate marker). -/
theorem claim_C8 (t : String) :
    (¬ stripStartsMarker t.data = true →
        add_doc_marker t = (⟨'-' :: '-' :: '-' :: '\n' :: t.data⟩, true) ∧
        markerFix t.data = '-' :: '-' :: '-' :: '\n' :: t.data) ∧
    (stripStartsMarker t.data = true →
        add_doc_marker t = (t, false) ∧ markerFix t.data = t.data) := by
  constructor
  · intro h
    constructor
    · unfold add_doc_marker
      rw [if_neg h]
    · unfold markerFix
      rw [if_pos (by simpa using h)]
  · intro h
    constructor
    · unfold add_doc_marker
      rw [if_pos h]
    · unfold markerFix
      rw [if_neg (by simpa using h)]

/-- C8 witness: a text with no marker gains exactly `---\n`. -/
theorem claim_C8_witness :
    add_doc_marker "name: X" = ("---\nname: X", true) ∧
    markerFix "name: X".data = "---\nname: X".data := by
  have h := (claim_C8 "name: X").1 (by decide)
  exact ⟨h.1, h.2⟩

theorem fix_yaml_file_files_processed (st : RemStats) (r : Except String String) :
    (fix_yaml_file st r).1.files_processed = st.files_processed + 1 := by
  rcases r with e | content
  · rfl
  · simp only [fix_yaml_file]
    repeat' split
    all_goals rfl

theorem fix_yaml_file_err_branch (st : RemStats) (content err : String)
    (hres : (fix_escaped_content (markerFix (nbspFix content.data))).2 =
      .error err) :
    (fix_yaml_file st (.ok content)).1.errors = st.errors ++ [err] := by
  simp only [fix_yaml_file, hres]
  repeat' split
  all_goals rfl

theorem fix_yaml_file_ok_branch (st : RemStats) (content : String)
    (out : List Char)
    (hres : (fix_escaped_content (markerFix (nbspFix content.data))).2 =
      .ok out) :
    (fix_yaml_file st (.ok content)).1.errors = st.errors := by
  simp only [fix_yaml_file, hres]
  repeat' split
  all_goals rfl

theorem fix_yaml_file_errors_length (st : RemStats) (r : Except String String) :
    (fix_yaml_file st r).1.errors.length =
      st.errors.length + (if fixFails r then 1 else 0) := by
  rcases r with e | content
  · simp [fix_yaml_file, fixFails]
  · rcases hres : (fix_escaped_content (markerFix (nbspFix content.data))).2 with
      err | out
    · rw [fix_yaml_file_err_branch st content err hres]
      have hf : fixFails (.ok content) = true := by
        simp [fixFails, remediateL, hres, Except.isOk, Except.toBool]
      rw [hf]
      simp
    · rw [fix_yaml_file_ok_branch st content out hres]
      have hf : fixFails (.ok content) = false := by
        simp [fixFails, remediateL, hres, Except.isOk, Except.toBool]
      rw [hf]
      simp

theorem process_directory_files_processed (st : RemStats)
    (files : List (Except String String)) :
    (process_directory st files).files_processed =
      st.files_processed + files.length := by
  induction files generalizing st with
  | nil => simp [process_directory]
  | cons f fs ih =>
    simp only [process_directory, List.foldl_cons, List.length_cons]
    have := ih ((fix_yaml_file st f).1)
    simp only [process_directory] at this
    rw [this, fix_yaml_file_files_processed]
    omega

/-- C9: error handling of the Remediator's batch loop.  A failing file
(the read errored, or the pipeline raised) appends exactly one message to
`errors`; `files_processed` is bumped on every file, failing or not; and a
whole batch processes every file, so `files_processed` grows by exactly
the number of files given — no failure aborts the run. -/
theorem claim_C9 (st : RemStats) (e : String) (r : Except String String)
    (files : List (Except String String)) :
    (fix_yaml_file st (.error e)).1.errors = st.errors ++ [e] ∧
    (fix_yaml_file st r).1.files_processed = st.files_processed + 1 ∧
    (fix_yaml_file st r).1.errors.length =
      st.errors.length + (if fixFails r then 1 else 0) ∧
    (process_directory st files).files_processed =
      st.files_processed + files.length :=
  ⟨rfl, fix_yaml_file_files_processed st r, fix_yaml_file_errors_length st r,
    process_directory_files_processed st files⟩

/-- C2 (recording the divergence): the Remediator never quotes ambiguous
scalars.  On the spec's scenario input the output leaves `version: 1.0`
bare (no `"1.0"` anywhere in the output), and the `values_quoted` counter
is never incremented on any file — `AMBIGUOUS_VALUES` is dead code. -/
theorem claim_C2 :
    remediate "version: 1.0\nname: X" = .ok "---\nversion: 1.0\nname: X" ∧
    containsSub ['"', '1', '.', '0', '"'] "---\nversion: 1.0\nname: X".data = false ∧
    ∀ (st : RemStats) (r : Except String String),
      (fix_yaml_file st r).1.values_quoted = st.values_quoted := by
  refine ⟨by rfl, by decide, ?_⟩
  intro st r
  rcases r with e | content
  · rfl
  · simp only [fix_yaml_file]
    repeat' split
    all_goals rfl

/-! ## The tag loop as a fold, and last-wins lookup -/

/-- Unfolding of `parseL` in the tags-found case: the loop is a fold of
dictionary assignments of each match's classified body, and the leftover
text, when nonempty, is assigned to `instructions` last. -/
theorem parseL_eq_of_matches {l : List Char}
    (hne : (tagMatches true l).isEmpty = false) :
    parseL l =
      (if (remainingText l).isEmpty then
        PyVal.dict ((tagMatches true l).foldl
          (fun res m => dictSet res (normTag m.1) (classifyBody m.2)) [])
      else
        PyVal.dict (dictSet ((tagMatches true l).foldl
          (fun res m => dictSet res (normTag m.1) (classifyBody m.2)) [])
          "instructions" (.str ⟨remainingText l⟩))) := by
  unfold parseL
  simp only [parseF]
  rw [hne]
  simp only [Bool.false_eq_true, if_false]
  have hfold : (tagMatches true l).foldl (fun res m =>
      dictSet res (normTag m.1)
        (if hasXmlPattern (pyStrip m.2) then parseF l.length (pyStrip m.2)
         else if (pyStrip m.2).contains '[' &&
             containsSub [']', ':'] (pyStrip m.2) then
           bracketTemplateNode (pyStrip m.2)
         else .str ⟨cleanTextL (pyStrip m.2)⟩)) [] =
      (tagMatches true l).foldl (fun res m =>
        dictSet res (normTag m.1) (classifyBody m.2)) [] := by
    apply List.foldl_ext
    intro d m hm
    have hb : m.2.length < l.length :=
      tagMatches_body_lt true l.length (le_refl _) hm
    have htc : (pyStrip m.2).length < l.length :=
      lt_of_le_of_lt (pyStrip_length_le _) hb
    unfold classifyBody
    by_cases hx : hasXmlPattern (pyStrip m.2)
    · simp only [hx, if_true]
      unfold parseL
      exact congrArg _ (parseF_congr l.length ((pyStrip m.2).length + 1) _
        (by omega) (by omega))
    · simp only [Bool.of_not_eq_true hx, Bool.false_eq_true, if_false]
  rw [hfold]

/-- C10 (implicit in the code): when some tag normalizes to `instructions`
and nonempty untagged text remains, the leftover text is assigned to the
`instructions` key after the tag loop, silently replacing the tag's parsed
value. -/
theorem claim_C10 (t : String)
    (h1 : ∃ m ∈ tagMatches true t.data, normTag m.1 = "instructions")
    (h2 : (remainingText t.data).isEmpty = false) :
    pyGet (parse_xml_to_yaml t) "instructions" =
      some (.str ⟨remainingText t.data⟩) := by
  obtain ⟨m, hm, _⟩ := h1
  have hne : (tagMatches true t.data).isEmpty = false := by
    rcases hh : tagMatches true t.data with _ | _
    · rw [hh] at hm; cases hm
    · rfl
  unfold parse_xml_to_yaml
  rw [parseL_eq_of_matches hne, if_neg (by simp [h2])]
  simp only [pyGet]
  exact dictGet_dictSet_self _ _ _

/-- C10 witness. -/
theorem claim_C10_witness :
    pyGet (parse_xml_to_yaml "<instructions>a</instructions>leftover")
        "instructions" =
      some (.str ⟨remainingText "<instructions>a</instructions>leftover".data⟩) :=
  claim_C10 "<instructions>a</instructions>leftover"
    ⟨(['i', 'n', 's', 't', 'r', 'u', 'c', 't', 'i', 'o', 'n', 's'], ['a']),
      by decide, by decide⟩ (by decide)

theorem dictGet_foldl_dictSet (k : String) (ps : List (String × PyVal)) :
    ∀ init : List (String × PyVal),
      dictGet (ps.foldl (fun d p => dictSet d p.1 p.2) init) k =
        (match lastVal k ps with
         | some v => some v
         | none => dictGet init k) := by
  induction ps with
  | nil => intro init; simp [lastVal]
  | cons p rest ih =>
    intro init
    simp only [List.foldl_cons, lastVal]
    rw [ih]
    rcases lastVal k rest with _ | w
    · by_cases hk : p.1 = k
      · subst hk
        simp [dictGet_dictSet_self]
      · simp only [hk, Bool.false_eq_true, if_false]
        exact dictGet_dictSet_ne init (fun hh => hk hh.symm)
    · rfl

theorem lastVal_map_classify (k : String) (ms : List (List Char × List Char)) :
    lastVal k (ms.map (fun m => (normTag m.1, classifyBody m.2))) =
      ((ms.filter (fun m => normTag m.1 = k)).getLast?).map
        (fun m => classifyBody m.2) := by
  induction ms with
  | nil => simp [lastVal]
  | cons m rest ih =>
    simp only [List.map_cons, lastVal, ih, List.filter_cons]
    by_cases hk : normTag m.1 = k
    · rcases hh : rest.filter (fun mm => decide (normTag mm.1 = k)) with _ | ⟨a, b⟩
      · simp [hh, hk]
      · rw [if_pos (show decide (normTag m.1 = k) = true by simp [hk])]
        rw [hh, List.getLast?_cons_cons]
        rcases hlast : (a :: b).getLast? with _ | x
        · exact absurd (List.getLast?_eq_none_iff.mp hlast) (by simp)
        · simp [hlast]
    · rw [if_neg (show ¬ decide (normTag m.1 = k) = true by simp [hk])]
      rcases hlast : (rest.filter (fun mm => decide (normTag mm.1 = k))).getLast? with
        _ | x
      · simp [hlast, hk]
      · simp [hlast, hk]

/-- C4 as amended: among duplicate tag names the last occurrence wins —
provided the key is not the reserved `instructions` key while leftover
untagged text exists (in that one case the leftover text wins, see C10). -/
theorem claim_C4_amended (t k : String)
    (hdup : 2 ≤ ((tagMatches true t.data).filter
      (fun m => normTag m.1 = k)).length)
    (hside : k ≠ "instructions" ∨ (remainingText t.data).isEmpty = true) :
    ∃ m, ((tagMatches true t.data).filter
        (fun m => normTag m.1 = k)).getLast? = some m ∧
      pyGet (parse_xml_to_yaml t) k = some (classifyBody m.2) := by
  have hne0 : (tagMatches true t.data).isEmpty = false := by
    rcases hh : tagMatches true t.data with _ | _
    · rw [hh] at hdup; simp at hdup
    · rfl
  obtain ⟨m, hm⟩ : ∃ m, ((tagMatches true t.data).filter
      (fun m => normTag m.1 = k)).getLast? = some m := by
    rcases hh : ((tagMatches true t.data).filter
        (fun m => normTag m.1 = k)).getLast? with _ | m
    · rw [List.getLast?_eq_none_iff] at hh
      rw [hh] at hdup
      simp at hdup
    · exact ⟨m, hh⟩
  refine ⟨m, hm, ?_⟩
  unfold parse_xml_to_yaml
  rw [parseL_eq_of_matches hne0]
  have hfold : dictGet ((tagMatches true t.data).foldl
      (fun res mm => dictSet res (normTag mm.1) (classifyBody mm.2)) []) k =
      some (classifyBody m.2) := by
    have hmap := dictGet_foldl_dictSet k
      ((tagMatches true t.data).map (fun mm => (normTag mm.1, classifyBody mm.2))) []
    rw [List.foldl_map] at hmap
    rw [hmap, lastVal_map_classify, hm]
    rfl
  by_cases hrem : (remainingText t.data).isEmpty
  · rw [if_pos hrem]
    simpa [pyGet] using hfold
  · rw [if_neg hrem]
    simp only [pyGet]
    have hk : k ≠ "instructions" := by
      rcases hside with h | h
      · exact h
      · exact absurd h hrem
    rw [dictGet_dictSet_ne _ hk]
    exact hfold

/-- C4 witness for the amended statement. -/
theorem claim_C4_amended_witness :
    ∃ m, ((tagMatches true "<a>one</a><A>two</A>".data).filter
        (fun mm => normTag mm.1 = "a")).getLast? = some m ∧
      pyGet (parse_xml_to_yaml "<a>one</a><A>two</A>") "a" =
        some (classifyBody m.2) :=
  claim_C4_amended "<a>one</a><A>two</A>" "a" (by decide) (.inl (by decide))

/-- C4 counterexample to the claim as stated: with two `instructions` tags
and leftover text `x`, the parse maps `instructions` to the leftover `x`,
not to the value `b` parsed from the last tag occurrence. -/
theorem claim_C4_counterexample :
    (tagMatches true
        "<instructions>a</instructions><instructions>b</instructions>x".data).map
      (fun m => ((⟨m.1⟩ : String), (⟨m.2⟩ : String))) =
        [("instructions", "a"), ("instructions", "b")] ∧
    pyGet (parse_xml_to_yaml
        "<instructions>a</instructions><instructions>b</instructions>x")
      "instructions" = some (.str "x") ∧
    classifyBody "b".data = .str "b" ∧
    PyVal.str "x" ≠ PyVal.str "b" := by
  refine ⟨by decide, by rfl, by rfl, ?_⟩
  intro h
  injection h with h'
  exact absurd h' (by decide)

/-! ## Remediator pipeline lemmas for C1 -/

theorem nbspFix_id {l : List Char} (h : l.contains nbspChar = false) :
    nbspFix l = l := by
  induction l with
  | nil => rfl
  | cons c t ih =>
    simp only [List.contains_cons, Bool.or_eq_false_iff] at h
    simp only [nbspFix, List.map_cons]
    have hc : ¬ c = nbspChar := by
      intro hh
      rw [hh] at h
      simp at h
    rw [if_neg hc]
    have := ih (by simpa [nbspFix] using h.2)
    simp only [nbspFix] at this
    rw [this]

theorem matchEscAt_none_nonws {c : Char} (t : List Char)
    (h : isPySpace c = false) : matchEscAt (c :: t) = none := by
  simp [matchEscAt, h]

theorem matchEscAt_none_dash (r : List Char) {l : List Char}
    (h : l.dropWhile isPySpace = '-' :: r) : matchEscAt l = none := by
  rcases l with _ | ⟨c, t⟩
  · rfl
  by_cases hc : isPySpace c
  · simp only [matchEscAt, hc, not_true, if_false]
    rw [h]
    simp [List.takeWhile_cons, isWordChar]
  · exact matchEscAt_none_nonws t (Bool.of_not_eq_true hc)

set_option maxHeartbeats 1600000 in
theorem subEscF_step_none {fuel : Nat} {c : Char} {t : List Char}
    (hm : matchEscAt (c :: t) = none) :
    subEscF (fuel + 1) (c :: t) =
      ((subEscF fuel t).1, (subEscF fuel t).2.map (fun out => c :: out)) := by
  simp only [subEscF, hm]

theorem subEscF_no_match :
    ∀ fuel : Nat, ∀ l : List Char, l.length ≤ fuel → hasEscMatch l = false →
      subEscF fuel l = (0, .ok l) := by
  intro fuel
  induction fuel with
  | zero =>
    intro l h1 _
    rw [List.length_eq_zero.mp (Nat.le_zero.mp h1)]
    rfl
  | succ f ih =>
    intro l h1 h2
    rcases l with _ | ⟨c, t⟩
    · rfl
    simp only [hasEscMatch, Bool.or_eq_false_iff] at h2
    have hm : matchEscAt (c :: t) = none := by
      rcases hh : matchEscAt (c :: t) with _ | m
      · rfl
      · rw [hh] at h2; simp at h2
    rw [subEscF_step_none hm]
    simp only [List.length_cons] at h1
    rw [ih t (by omega) h2.2]
    rfl

theorem dropWhile_ws_append {W l : List Char}
    (hW : ∀ c ∈ W, isPySpace c = true) :
    (W ++ l).dropWhile isPySpace = l.dropWhile isPySpace := by
  induction W with
  | nil => rfl
  | cons w W' ih =>
    simp only [List.cons_append, List.dropWhile_cons_of_pos
      (hW w (List.mem_cons_self _ _)), ih (fun c hc => hW c (List.mem_cons_of_mem _ hc))]

theorem subEscF_marker :
    ∀ fuel : Nat, ∀ W r' : List Char, (∀ c ∈ W, isPySpace c = true) →
      (W ++ '-' :: '-' :: '-' :: r').length ≤ fuel →
      ∀ out, (subEscF fuel (W ++ '-' :: '-' :: '-' :: r')).2 = .ok out →
      ∃ X, out = W ++ '-' :: '-' :: '-' :: X := by
  intro fuel
  induction fuel with
  | zero =>
    intro W r' _ h1 out hout
    exfalso
    simp only [List.length_append, List.length_cons] at h1
    omega
  | succ f ih =>
    intro W r' hW h1 out hout
    rcases W with _ | ⟨w, W'⟩
    · simp only [List.nil_append] at hout h1 ⊢
      have hdash : isPySpace '-' = false := by decide
      simp only [List.length_cons] at h1
      rcases f with _ | f2
      · omega
      rcases f2 with _ | f3
      · omega
      rw [subEscF_step_none (matchEscAt_none_nonws _ hdash),
        subEscF_step_none (matchEscAt_none_nonws _ hdash),
        subEscF_step_none (matchEscAt_none_nonws _ hdash)] at hout
      simp only at hout
      rcases hr : (subEscF f3 r').2 with err | X <;> rw [hr] at hout
      · simp [Except.map] at hout
      · simp only [Except.map, Except.ok.injEq] at hout
        exact ⟨X, hout.symm⟩
    · have hw : isPySpace w = true := hW w (List.mem_cons_self _ _)
      have hW' : ∀ c ∈ W', isPySpace c = true :=
        fun c hc => hW c (List.mem_cons_of_mem _ hc)
      have hm : matchEscAt (w :: (W' ++ '-' :: '-' :: '-' :: r')) = none := by
        apply matchEscAt_none_dash ('-' :: '-' :: r')
        simp only [List.dropWhile_cons_of_pos hw]
        rw [dropWhile_ws_append hW']
        rw [List.dropWhile_cons_of_neg (by decide)]
      rw [List.cons_append, subEscF_step_none hm] at hout
      simp only at hout
      rcases hr : (subEscF f (W' ++ '-' :: '-' :: '-' :: r')).2 with err | out1 <;>
        rw [hr] at hout
      · simp [Except.map] at hout
      · simp only [Except.map, Except.ok.injEq] at hout
        simp only [List.cons_append, List.length_cons] at h1
        obtain ⟨X, hX⟩ := ih W' r' hW' (by omega) out1 hr
        exact ⟨X, by rw [← hout, hX]; rfl⟩

/-- One pass of the Remediator always leaves text whose stripped form
begins with the document marker. -/
theorem remediate_marker (s r : String) (h : remediate s = .ok r) :
    stripStartsMarker r.data = true := by
  unfold remediate remediateL fix_escaped_content at h
  obtain ⟨W, rest, hW, hdec⟩ :=
    stripStartsMarker_decomp (markerFix_marker (nbspFix s.data))
  rw [hdec] at h
  rcases hr : (subEscF (W ++ '-' :: '-' :: '-' :: rest).length
      (W ++ '-' :: '-' :: '-' :: rest)).2 with err | out <;> rw [hr] at h
  · simp [Except.map] at h
  · simp only [Except.map, Except.ok.injEq] at h
    obtain ⟨X, hX⟩ := subEscF_marker _ W rest hW (le_refl _) out hr
    have : r.data = W ++ '-' :: '-' :: '-' :: X := by
      rw [← h, hX]
    rw [this]
    exact stripStartsMarker_of_decomp hW

/-- C1 as amended: the full fixer pipeline is idempotent on every input
for which one pass actually leaves no defect behind — the output contains
no NBSP and no quoted-field-with-escape match.  (The unamended claim is
refuted by `claim_C1_counterexample`: unescaping can mint a new defect,
e.g. `\xa0` decodes to an NBSP that the next pass then rewrites.) -/
theorem claim_C1_amended (s r : String) (h : remediate s = .ok r)
    (hnb : r.data.contains nbspChar = false)
    (hesc : hasEscMatch r.data = false) :
    remediate r = .ok r := by
  have hmark : stripStartsMarker r.data = true := remediate_marker s r h
  unfold remediate remediateL fix_escaped_content
  rw [nbspFix_id hnb]
  unfold markerFix
  rw [if_neg (by simp [hmark])]
  rw [subEscF_no_match r.data.length r.data (le_refl _) hesc]
  rfl

/-- C1 amended witness. -/
theorem claim_C1_amended_witness : remediate "---\na: b" = .ok "---\na: b" :=
  claim_C1_amended "a: b" "---\na: b" (by rfl) (by decide) (by decide)

/-- C1 counterexample to the claim as stated: on this input the first pass
unescapes `\xa0` into a literal NBSP inside the new block scalar, and the
second pass then replaces that NBSP with a space, so
`remediate (remediate s) ≠ remediate s`. -/
theorem claim_C1_counterexample :
    remediate "  a: \"x\\xa0y\\nz\"" =
      .ok "---\n  a:  |\n\n    x y\n\n    z" ∧
    remediate "---\n  a:  |\n\n    x y\n\n    z" =
      .ok "---\n  a:  |\n\n    x y\n\n    z" ∧
    ("---\n  a:  |\n\n    x y\n\n    z" : String) ≠
      "---\n  a:  |\n\n    x y\n\n    z" :=
  ⟨by rfl, by rfl, by decide⟩

/-! ## Strip fixed-point lemmas for C7 -/

theorem dropWhile_eq_self_of_head {p : Char → Bool} {l : List Char}
    (h : ∀ x, l.head? = some x → p x = false) : l.dropWhile p = l := by
  rcases l with _ | ⟨c, t⟩
  · rfl
  · rw [List.dropWhile_cons_of_neg]
    simp [h c rfl]

theorem head_of_pre {l₁ l₂ : List Char} {x : Char} (h : l₁ <+: l₂)
    (hx : l₁.head? = some x) : l₂.head? = some x := by
  obtain ⟨z, rfl⟩ := h
  rcases l₁ with _ | ⟨c, t⟩
  · cases hx
  · simpa using hx

theorem pyRstrip_eq_self {l : List Char}
    (h : ∀ x, l.reverse.head? = some x → isPySpace x = false) : pyRstrip l = l := by
  unfold pyRstrip
  rw [dropWhile_eq_self_of_head h, List.reverse_reverse]

theorem pyRstrip_rev_head (l : List Char) :
    ∀ x, (pyRstrip l).reverse.head? = some x → isPySpace x = false := by
  intro x hx
  unfold pyRstrip at hx
  rw [List.reverse_reverse] at hx
  have := List.head?_dropWhile_not isPySpace l.reverse
  rw [hx] at this
  exact this

theorem pyRstrip_idem (l : List Char) : pyRstrip (pyRstrip l) = pyRstrip l :=
  pyRstrip_eq_self (pyRstrip_rev_head l)

theorem pyLstrip_head (l : List Char) :
    ∀ x, (pyLstrip l).head? = some x → isPySpace x = false := by
  intro x hx
  have := List.head?_dropWhile_not isPySpace l
  unfold pyLstrip at hx
  rw [hx] at this
  exact this

theorem pyStrip_head (l : List Char) :
    ∀ x, (pyStrip l).head? = some x → isPySpace x = false := by
  intro x hx
  exact pyLstrip_head l x (head_of_pre (pyRstrip_pre (pyLstrip l)) hx)

theorem pyStrip_rev_head (l : List Char) :
    ∀ x, (pyStrip l).reverse.head? = some x → isPySpace x = false :=
  pyRstrip_rev_head (pyLstrip l)

theorem pyStrip_idem (l : List Char) : pyStrip (pyStrip l) = pyStrip l := by
  have h1 : pyLstrip (pyStrip l) = pyStrip l :=
    dropWhile_eq_self_of_head (pyStrip_head l)
  show pyRstrip (pyLstrip (pyStrip l)) = pyStrip l
  rw [h1]
  exact pyRstrip_eq_self (pyStrip_rev_head l)

theorem pyStrip_isInfix (l : List Char) : pyStrip l <:+: l :=
  ((pyRstrip_pre (pyLstrip l)).isInfix).trans
    ((List.dropWhile_suffix isPySpace).isInfix)

/-! ## The erase relation: per-line right-stripping only deletes
non-newline whitespace, so whitespace-run structure can only shrink. -/

theorem erase_refl (l : List Char) : Erase l l := by
  induction l with
  | nil => exact .nil
  | cons c t ih => exact .keep c ih

theorem erase_append {a b a' b' : List Char} (h : Erase a b) (h' : Erase a' b') :
    Erase (a ++ a') (b ++ b') := by
  induction h with
  | nil => simpa using h'
  | keep c _ ih => exact .keep c ih
  | drop c hw hnl _ ih => exact .drop c hw hnl ih

theorem erase_ws_nil {w : List Char}
    (h : ∀ c ∈ w, isPySpace c = true ∧ c ≠ '\n') : Erase w [] := by
  induction w with
  | nil => exact .nil
  | cons c t ih =>
    have hc := h c (List.mem_cons_self _ _)
    exact .drop c hc.1 hc.2 (ih fun d hd => h d (List.mem_cons_of_mem _ hd))

theorem erase_count_nl {a b : List Char} (h : Erase a b) :
    a.count '\n' = b.count '\n' := by
  induction h with
  | nil => rfl
  | keep c _ ih => simp [List.count_cons, ih]
  | drop c hw hnl _ ih =>
    rw [List.count_cons, ih]
    simp [hnl]

theorem erase_all_ws {a b : List Char} (h : Erase a b)
    (hb : ∀ c ∈ b, isPySpace c = true) : ∀ c ∈ a, isPySpace c = true := by
  induction h with
  | nil => exact hb
  | keep c _ ih =>
    intro d hd
    rcases List.mem_cons.mp hd with rfl | hd'
    · exact hb d (List.mem_cons_self _ _)
    · exact ih (fun e he => hb e (List.mem_cons_of_mem _ he)) d hd'
  | drop c hw _ _ ih =>
    intro d hd
    rcases List.mem_cons.mp hd with rfl | hd'
    · exact hw
    · exact ih hb d hd'

theorem erase_suffix_inv {a b : List Char} (h : Erase a b) :
    ∀ s, s <:+ b → ∃ s', s' <:+ a ∧ Erase s' s := by
  induction h with
  | nil =>
    intro s hs
    rw [List.suffix_nil.mp hs]
    exact ⟨[], List.suffix_refl _, .nil⟩
  | keep c her ih =>
    intro s hs
    rcases List.suffix_cons_iff.mp hs with rfl | hs'
    · exact ⟨_, List.suffix_refl _, .keep c her⟩
    · obtain ⟨s', hs'', he⟩ := ih s hs'
      exact ⟨s', hs''.trans (List.suffix_cons _ _), he⟩
  | drop c hw hnl her ih =>
    intro s hs
    obtain ⟨s', hs'', he⟩ := ih s hs
    exact ⟨s', hs''.trans (List.suffix_cons _ _), he⟩

theorem erase_pre_inv {a b : List Char} (h : Erase a b) :
    ∀ s, s <+: b → ∃ s', s' <+: a ∧ Erase s' s := by
  induction h with
  | nil =>
    intro s hs
    rw [List.prefix_nil.mp hs]
    exact ⟨[], List.nil_prefix, .nil⟩
  | keep c her ih =>
    intro s hs
    rcases List.prefix_cons_iff.mp hs with rfl | ⟨t, rfl, ht⟩
    · exact ⟨[], List.nil_prefix, .nil⟩
    · obtain ⟨s', hs'', he⟩ := ih t ht
      exact ⟨c :: s', List.cons_prefix_cons.mpr ⟨rfl, hs''⟩, .keep c he⟩
  | drop c hw hnl her ih =>
    intro s hs
    obtain ⟨s', hs'', he⟩ := ih s hs
    exact ⟨c :: s', List.cons_prefix_cons.mpr ⟨rfl, hs''⟩, .drop c hw hnl he⟩

theorem erase_infix_inv {a b : List Char} (h : Erase a b) :
    ∀ w, w <:+: b → ∃ w', w' <:+: a ∧ Erase w' w := by
  intro w hw
  obtain ⟨t, hpre, hsuf⟩ := List.infix_iff_prefix_suffix.mp hw
  obtain ⟨u, hu, heu⟩ := erase_suffix_inv h t hsuf
  obtain ⟨w', hw', hew⟩ := erase_pre_inv heu w hpre
  exact ⟨w', (hw'.isInfix).trans (hu.isInfix), hew⟩

theorem erase_wsRunsOK {a b : List Char} (h : Erase a b) (ha : wsRunsOK a) :
    wsRunsOK b := by
  intro w hw hws
  obtain ⟨w', hinf, hew⟩ := erase_infix_inv h w hw
  have hcount := erase_count_nl hew
  rw [← hcount]
  exact ha w' hinf (erase_all_ws hew hws)

/-! ## Split/join and right-strip erasure -/

theorem splitNl_ne_nil (l : List Char) : splitNl l ≠ [] := by
  rcases l with _ | ⟨c, t⟩
  · simp [splitNl]
  · by_cases hc : c = '\n'
    · simp [splitNl, hc]
    · simp only [splitNl, hc, Bool.false_eq_true, if_false]
      rcases splitNl t with _ | ⟨p, ps⟩ <;> simp

theorem joinNl_splitNl (l : List Char) : joinNl (splitNl l) = l := by
  induction l with
  | nil => rfl
  | cons c t ih =>
    by_cases hc : c = '\n'
    · subst hc
      simp only [splitNl, if_pos rfl]
      rcases hs : splitNl t with _ | ⟨p, ps⟩
      · exact absurd hs (splitNl_ne_nil t)
      · rw [hs] at ih
        simpa [joinNl] using ih
    · simp only [splitNl, hc, Bool.false_eq_true, if_false]
      rcases hs : splitNl t with _ | ⟨p, ps⟩
      · exact absurd hs (splitNl_ne_nil t)
      · rw [hs] at ih
        rcases ps with _ | ⟨q, ps'⟩
        · simpa [joinNl] using ih
        · simp only [joinNl] at ih ⊢
          rw [List.cons_append, ih]

theorem splitNl_no_nl (l : List Char) : ∀ p ∈ splitNl l, '\n' ∉ p := by
  induction l with
  | nil =>
    intro p hp
    simp only [splitNl, List.mem_singleton] at hp
    simp [hp]
  | cons c t ih =>
    intro p hp
    by_cases hc : c = '\n'
    · simp only [splitNl, hc, if_pos] at hp
      rcases List.mem_cons.mp hp with rfl | hp'
      · simp
      · exact ih p hp'
    · simp only [splitNl, hc, Bool.false_eq_true, if_false] at hp
      rcases hs : splitNl t with _ | ⟨p₀, ps⟩
      · exact absurd hs (splitNl_ne_nil t)
      · rw [hs] at hp
        rcases List.mem_cons.mp hp with rfl | hp'
        · intro hin
          rcases List.mem_cons.mp hin with rfl | hin'
          · exact hc rfl
          · exact ih p₀ (hs ▸ List.mem_cons_self _ _) hin'
        · exact ih p (hs ▸ List.mem_cons_of_mem _ hp')

theorem rstrip_decomp (l : List Char) :
    pyRstrip l ++ (l.reverse.takeWhile isPySpace).reverse = l := by
  unfold pyRstrip
  rw [← List.reverse_append]
  conv_rhs => rw [← List.reverse_reverse l]
  congr 1
  exact List.takeWhile_append_dropWhile isPySpace l.reverse

theorem erase_pyRstrip {l : List Char} (h : '\n' ∉ l) : Erase l (pyRstrip l) := by
  conv_lhs => rw [← rstrip_decomp l]
  have herase : Erase ((l.reverse.takeWhile isPySpace).reverse) [] := by
    apply erase_ws_nil
    intro c hc
    rw [List.mem_reverse] at hc
    have hmem : c ∈ l := List.mem_reverse.mp ((List.takeWhile_prefix _).subset hc)
    exact ⟨List.mem_takeWhile_imp hc, fun hc' => h (hc' ▸ hmem)⟩
  have := erase_append (erase_refl (pyRstrip l)) herase
  simpa using this

theorem erase_joinNl_rstrip (L : List (List Char)) (h : ∀ p ∈ L, '\n' ∉ p) :
    Erase (joinNl L) (joinNl (L.map pyRstrip)) := by
  induction L with
  | nil => exact .nil
  | cons p ps ih =>
    rcases ps with _ | ⟨q, ps'⟩
    · simpa [joinNl] using erase_pyRstrip (h p (List.mem_cons_self _ _))
    · simp only [joinNl, List.map_cons]
      exact erase_append (erase_pyRstrip (h p (List.mem_cons_self _ _)))
        (.keep '\n' (by
          have := ih (fun r hr => h r (List.mem_cons_of_mem _ hr))
          simpa [joinNl] using this))

/-! ## The blank-line collapse: step lemmas and whitespace-run bounds -/

theorem collapseBlankF_cons_pos {fuel : Nat} {c : Char} {t : List Char}
    (h : blankTrigger (c :: t) = true) :
    collapseBlankF (fuel + 1) (c :: t) =
      '\n' :: '\n' ::
        collapseBlankF fuel (wsTailAfterNl (c :: t) ++ (c :: t).dropWhile isPySpace) := by
  simp only [collapseBlankF, h, if_true]

theorem collapseBlankF_cons_neg {fuel : Nat} {c : Char} {t : List Char}
    (h : blankTrigger (c :: t) = false) :
    collapseBlankF (fuel + 1) (c :: t) = c :: collapseBlankF fuel t := by
  simp only [collapseBlankF, h, Bool.false_eq_true, if_false]

theorem wsTail_all (l : List Char) :
    ∀ c ∈ wsTailAfterNl l, isPySpace c = true ∧ c ≠ '\n' := by
  intro c hc
  unfold wsTailAfterNl at hc
  rw [List.mem_reverse] at hc
  have h1 : notNl c = true := List.mem_takeWhile_imp hc
  have h2 : c ∈ (l.takeWhile isPySpace).reverse := (List.takeWhile_prefix _).subset hc
  rw [List.mem_reverse] at h2
  refine ⟨List.mem_takeWhile_imp h2, ?_⟩
  simpa [notNl] using h1

theorem wsTail_count_nl (l : List Char) : (wsTailAfterNl l).count '\n' = 0 := by
  rw [List.count_eq_zero]
  intro h
  exact (wsTail_all l '\n' h).2 rfl

theorem takeWhile_append_all {p : Char → Bool} {l₁ l₂ : List Char}
    (h : ∀ a ∈ l₁, p a = true) :
    (l₁ ++ l₂).takeWhile p = l₁ ++ l₂.takeWhile p := by
  induction l₁ with
  | nil => rfl
  | cons c t ih =>
    rw [List.cons_append, List.takeWhile_cons_of_pos (h c (List.mem_cons_self _ _)),
      ih (fun a ha => h a (List.mem_cons_of_mem _ ha)), List.cons_append]

theorem takeWhile_dropWhile_nil (p : Char → Bool) (l : List Char) :
    (l.dropWhile p).takeWhile p = [] := by
  induction l with
  | nil => rfl
  | cons c t ih =>
    by_cases hc : p c = true
    · rw [List.dropWhile_cons_of_pos hc]
      exact ih
    · rw [List.dropWhile_cons_of_neg hc]
      exact List.takeWhile_cons_of_neg hc

theorem allws_prefix_takeWhile {p : Char → Bool} {w s : List Char}
    (hp : w <+: s) (hw : ∀ c ∈ w, p c = true) : w <+: s.takeWhile p := by
  induction w generalizing s with
  | nil => exact List.nil_prefix
  | cons c t ih =>
    obtain ⟨r, rfl⟩ := hp
    rw [List.cons_append, List.takeWhile_cons_of_pos (hw c (List.mem_cons_self _ _))]
    exact List.cons_prefix_cons.mpr
      ⟨rfl, ih (List.prefix_append t r) (fun a ha => hw a (List.mem_cons_of_mem _ ha))⟩

theorem wsRunsOK_nil : wsRunsOK [] := by
  intro w hw _
  rw [List.infix_nil.mp hw]
  simp

theorem wsRunsOK_of_suffix_bound {l : List Char}
    (h : ∀ s, s <:+ l → (s.takeWhile isPySpace).count '\n' ≤ 2) : wsRunsOK l := by
  intro w hw hws
  obtain ⟨t, hpre, hsuf⟩ := List.infix_iff_prefix_suffix.mp hw
  have hpre' : w <+: t.takeWhile isPySpace := allws_prefix_takeWhile hpre hws
  calc w.count '\n' ≤ (t.takeWhile isPySpace).count '\n' := hpre'.sublist.count_le '\n'
    _ ≤ 2 := h t hsuf

theorem collapseBlankF_id (fuel : Nat) :
    ∀ l : List Char, l.length ≤ fuel → wsRunsOK l → collapseBlankF fuel l = l := by
  induction fuel with
  | zero =>
    intro l hf _
    rw [List.length_eq_zero.mp (Nat.le_zero.mp hf)]
    rfl
  | succ fuel ih =>
    intro l hf hok
    rcases l with _ | ⟨c, t⟩
    · rfl
    · have hf' : t.length ≤ fuel := by
        simp only [List.length_cons] at hf
        omega
      cases htr : blankTrigger (c :: t) with
      | true =>
        exfalso
        have h3 : 3 ≤ ((c :: t).takeWhile isPySpace).count '\n' := by
          simp only [blankTrigger, Bool.and_eq_true, decide_eq_true_eq] at htr
          exact_mod_cast htr.2
        have hinf : (c :: t).takeWhile isPySpace <:+: (c :: t) :=
          (List.takeWhile_prefix _).isInfix
        have := hok _ hinf (fun x hx => List.mem_takeWhile_imp hx)
        omega
      | false =>
        rw [collapseBlankF_cons_neg htr]
        congr 1
        exact ih t hf' (fun w hw hws => hok w (List.infix_cons hw) hws)

theorem collapseBlankF_takeWhile (fuel : Nat) :
    ∀ l : List Char, l.length ≤ fuel → (l.takeWhile isPySpace).count '\n' ≤ 2 →
    (collapseBlankF fuel l).takeWhile isPySpace = l.takeWhile isPySpace := by
  induction fuel with
  | zero =>
    intro l hf _
    rw [List.length_eq_zero.mp (Nat.le_zero.mp hf)]
    rfl
  | succ fuel ih =>
    intro l hf hcnt
    rcases l with _ | ⟨c, t⟩
    · rfl
    · have hf' : t.length ≤ fuel := by
        simp only [List.length_cons] at hf
        omega
      cases htr : blankTrigger (c :: t) with
      | true =>
        exfalso
        have h3 : 3 ≤ ((c :: t).takeWhile isPySpace).count '\n' := by
          simp only [blankTrigger, Bool.and_eq_true, decide_eq_true_eq] at htr
          exact_mod_cast htr.2
        omega
      | false =>
        rw [collapseBlankF_cons_neg htr]
        by_cases hc : isPySpace c = true
        · rw [List.takeWhile_cons_of_pos hc, List.takeWhile_cons_of_pos hc]
          congr 1
          apply ih t hf'
          have hsub : (t.takeWhile isPySpace).count '\n'
              ≤ ((c :: t).takeWhile isPySpace).count '\n' := by
            rw [List.takeWhile_cons_of_pos hc]
            exact (List.sublist_cons_self _ _).count_le '\n'
          omega
        · rw [List.takeWhile_cons_of_neg hc, List.takeWhile_cons_of_neg hc]

theorem collapseBlankF_inner_take (fuel : Nat) (l : List Char)
    (hf : (wsTailAfterNl l ++ l.dropWhile isPySpace).length ≤ fuel) :
    (collapseBlankF fuel (wsTailAfterNl l ++ l.dropWhile isPySpace)).takeWhile isPySpace
      = wsTailAfterNl l := by
  have hws : ∀ a ∈ wsTailAfterNl l, isPySpace a = true := fun a ha => (wsTail_all l a ha).1
  have htake : (wsTailAfterNl l ++ l.dropWhile isPySpace).takeWhile isPySpace
      = wsTailAfterNl l := by
    rw [takeWhile_append_all hws, takeWhile_dropWhile_nil, List.append_nil]
  have hcnt : ((wsTailAfterNl l ++ l.dropWhile isPySpace).takeWhile isPySpace).count '\n'
      ≤ 2 := by
    rw [htake, wsTail_count_nl]
    omega
  rw [collapseBlankF_takeWhile fuel _ hf hcnt, htake]

theorem collapseBlankF_count_le (fuel : Nat) :
    ∀ l : List Char, l.length ≤ fuel →
    ((collapseBlankF fuel l).takeWhile isPySpace).count '\n' ≤ 2 := by
  induction fuel with
  | zero =>
    intro l hf
    rw [List.length_eq_zero.mp (Nat.le_zero.mp hf)]
    simp [collapseBlankF]
  | succ fuel ih =>
    intro l hf
    rcases l with _ | ⟨c, t⟩
    · simp [collapseBlankF]
    · have hf' : t.length ≤ fuel := by
        simp only [List.length_cons] at hf
        omega
      cases htr : blankTrigger (c :: t) with
      | true =>
        have hflt : (wsTailAfterNl (c :: t) ++ (c :: t).dropWhile isPySpace).length ≤ fuel := by
          have hlt := wsTail_lt_of_trigger htr
          simp only [List.length_cons] at hlt hf
          omega
        rw [collapseBlankF_cons_pos htr,
          List.takeWhile_cons_of_pos (show isPySpace '\n' = true by decide),
          List.takeWhile_cons_of_pos (show isPySpace '\n' = true by decide),
          collapseBlankF_inner_take fuel (c :: t) hflt]
        simp [List.count_cons, wsTail_count_nl]
      | false =>
        rw [collapseBlankF_cons_neg htr]
        by_cases hc : isPySpace c = true
        · rw [List.takeWhile_cons_of_pos hc]
          by_cases hcn : c = '\n'
          · subst hcn
            have hle : (('\n' :: t).takeWhile isPySpace).count '\n' ≤ 2 := by
              by_contra hgt
              have hbt : blankTrigger ('\n' :: t) = true := by
                simp only [blankTrigger, Bool.and_eq_true, decide_eq_true_eq]
                exact ⟨trivial, by omega⟩
              rw [hbt] at htr
              cases htr
            have hle1 : (t.takeWhile isPySpace).count '\n' ≤ 2 := by
              rw [List.takeWhile_cons_of_pos hc] at hle
              have := (List.sublist_cons_self '\n' (t.takeWhile isPySpace)).count_le '\n'
              omega
            rw [collapseBlankF_takeWhile fuel t hf' hle1, ← List.takeWhile_cons_of_pos hc]
            exact hle
          · have hih := ih t hf'
            simp only [List.count_cons, beq_iff_eq, hcn, if_false]
            omega
        · rw [List.takeWhile_cons_of_neg hc]
          simp

theorem collapseBlankF_wsRunsOK (fuel : Nat) :
    ∀ l : List Char, l.length ≤ fuel → wsRunsOK (collapseBlankF fuel l) := by
  induction fuel with
  | zero =>
    intro l hf
    rw [List.length_eq_zero.mp (Nat.le_zero.mp hf)]
    exact wsRunsOK_nil
  | succ fuel ih =>
    intro l hf
    rcases l with _ | ⟨c, t⟩
    · exact wsRunsOK_nil
    · have hf' : t.length ≤ fuel := by
        simp only [List.length_cons] at hf
        omega
      cases htr : blankTrigger (c :: t) with
      | true =>
        have hflt : (wsTailAfterNl (c :: t) ++ (c :: t).dropWhile isPySpace).length ≤ fuel := by
          have hlt := wsTail_lt_of_trigger htr
          simp only [List.length_cons] at hlt hf
          omega
        rw [collapseBlankF_cons_pos htr]
        apply wsRunsOK_of_suffix_bound
        intro s hs
        rw [List.suffix_cons_iff] at hs
        rcases hs with rfl | hs
        · rw [List.takeWhile_cons_of_pos (show isPySpace '\n' = true by decide),
            List.takeWhile_cons_of_pos (show isPySpace '\n' = true by decide),
            collapseBlankF_inner_take fuel (c :: t) hflt]
          simp [List.count_cons, wsTail_count_nl]
        · rw [List.suffix_cons_iff] at hs
          rcases hs with rfl | hs
          · rw [List.takeWhile_cons_of_pos (show isPySpace '\n' = true by decide),
              collapseBlankF_inner_take fuel (c :: t) hflt]
            simp [List.count_cons, wsTail_count_nl]
          · have hok := ih _ hflt
            have hinf : s.takeWhile isPySpace
                <:+: collapseBlankF fuel
                  (wsTailAfterNl (c :: t) ++ (c :: t).dropWhile isPySpace) :=
              ((List.takeWhile_prefix _).isInfix).trans hs.isInfix
            exact hok _ hinf (fun x hx => List.mem_takeWhile_imp hx)
      | false =>
        rw [collapseBlankF_cons_neg htr]
        apply wsRunsOK_of_suffix_bound
        intro s hs
        rw [List.suffix_cons_iff] at hs
        rcases hs with rfl | hs
        · have hall := collapseBlankF_count_le (fuel + 1) (c :: t) hf
          rw [collapseBlankF_cons_neg htr] at hall
          exact hall
        · have hok := ih t hf'
          have hinf : s.takeWhile isPySpace <:+: collapseBlankF fuel t :=
            ((List.takeWhile_prefix _).isInfix).trans hs.isInfix
          exact hok _ hinf (fun x hx => List.mem_takeWhile_imp hx)

theorem collapseBlank_wsRunsOK (l : List Char) : wsRunsOK (collapseBlank l) :=
  collapseBlankF_wsRunsOK l.length l le_rfl

theorem collapseBlank_id {l : List Char} (h : wsRunsOK l) : collapseBlank l = l :=
  collapseBlankF_id l.length l le_rfl h

/-! ## Right-stripped lines and the absence of trailing whitespace -/

theorem rev_head_cons {c : Char} {t : List Char} (ht : t ≠ []) :
    (c :: t).reverse.head? = t.reverse.head? := by
  rcases hr : t.reverse with _ | ⟨y, ys⟩
  · exact absurd (List.reverse_eq_nil_iff.mp hr) ht
  · rw [List.reverse_cons, hr]
    rfl

theorem splitNl_head_nil {t : List Char} {ps : List (List Char)}
    (h : splitNl t = [] :: ps) : t = [] ∨ t.head? = some '\n' := by
  rcases t with _ | ⟨d, t'⟩
  · exact Or.inl rfl
  · by_cases hd : d = '\n'
    · exact Or.inr (by simp [hd])
    · exfalso
      simp only [splitNl, hd, Bool.false_eq_true, if_false] at h
      rcases hs : splitNl t' with _ | ⟨q, qs⟩ <;> rw [hs] at h <;> simp at h

theorem splitNl_rstripped : ∀ l : List Char, noTrailWs l →
    (∀ x, l.reverse.head? = some x → isPySpace x = false) →
    ∀ p ∈ splitNl l, pyRstrip p = p := by
  intro l
  induction l with
  | nil =>
    intro _ _ p hp
    simp only [splitNl, List.mem_singleton] at hp
    rw [hp]
    rfl
  | cons c t ih =>
    intro hchain hlast p hp
    by_cases hc : c = '\n'
    · subst hc
      simp only [splitNl, if_pos rfl] at hp
      rcases List.mem_cons.mp hp with rfl | hp'
      · rfl
      · rcases t with _ | ⟨d, t'⟩
        · simp only [splitNl, List.mem_singleton] at hp'
          rw [hp']
          rfl
        · refine ih (List.Chain'.tail hchain) ?_ p hp'
          intro x hx
          refine hlast x ?_
          rw [rev_head_cons (List.cons_ne_nil d t')]
          exact hx
    · simp only [splitNl, hc, Bool.false_eq_true, if_false] at hp
      rcases hs : splitNl t with _ | ⟨p₀, ps⟩
      · exact absurd hs (splitNl_ne_nil t)
      · rw [hs] at hp
        have hihOK : ∀ q ∈ splitNl t, pyRstrip q = q := by
          rcases t with _ | ⟨d, t'⟩
          · intro q hq
            simp only [splitNl, List.mem_singleton] at hq
            rw [hq]
            rfl
          · refine ih (List.Chain'.tail hchain) ?_
            intro x hx
            refine hlast x ?_
            rw [rev_head_cons (List.cons_ne_nil d t')]
            exact hx
        rcases List.mem_cons.mp hp with rfl | hp'
        · apply pyRstrip_eq_self
          intro x hx
          rcases p₀ with _ | ⟨e, q'⟩
          · have hxc : x = c := by
              simp only [List.reverse_cons, List.reverse_nil, List.nil_append,
                List.head?_cons, Option.some.injEq] at hx
              exact hx.symm
            rw [hxc]
            rcases splitNl_head_nil hs with rfl | hhd
            · exact hlast c (by simp)
            · rcases t with _ | ⟨d, t''⟩
              · cases hhd
              · have hd : d = '\n' := by
                  simpa using hhd
                have hR := (List.chain'_cons.mp hchain).1
                rcases hR hd with hcn | hws
                · exact absurd hcn hc
                · exact hws
          · rw [rev_head_cons (List.cons_ne_nil e q')] at hx
            have hfix : pyRstrip (e :: q') = e :: q' :=
              hihOK (e :: q') (by rw [hs]; exact List.mem_cons_self _ _)
            have hrh := pyRstrip_rev_head (e :: q') x
            rw [hfix] at hrh
            exact hrh hx
        · exact hihOK p (by rw [hs]; exact List.mem_cons_of_mem _ hp')

theorem noTrailWs_of_nl_free {p : List Char} (h : '\n' ∉ p) : noTrailWs p := by
  unfold noTrailWs
  induction p with
  | nil => exact List.chain'_nil
  | cons c t ih =>
    rcases t with _ | ⟨d, t'⟩
    · exact List.chain'_singleton c
    · rw [List.chain'_cons]
      refine ⟨?_, ih (fun hm => h (List.mem_cons_of_mem _ hm))⟩
      intro hd
      exfalso
      apply h
      rw [← hd]
      exact List.mem_cons_of_mem _ (List.mem_cons_self _ _)

theorem noTrailWs_joinNl (L : List (List Char))
    (h : ∀ p ∈ L, ('\n' ∉ p) ∧ ∀ x, p.reverse.head? = some x → isPySpace x = false) :
    noTrailWs (joinNl L) := by
  induction L with
  | nil => exact List.chain'_nil
  | cons p ps ih =>
    rcases ps with _ | ⟨q, ps'⟩
    · exact noTrailWs_of_nl_free (h p (List.mem_cons_self _ _)).1
    · show List.Chain' _ (p ++ '\n' :: joinNl (q :: ps'))
      rw [List.chain'_append]
      refine ⟨noTrailWs_of_nl_free (h p (List.mem_cons_self _ _)).1, ?_, ?_⟩
      · rw [List.chain'_cons']
        exact ⟨fun y _ _ => Or.inl rfl, ih (fun r hr => h r (List.mem_cons_of_mem _ hr))⟩
      · intro x hxl y _ _
        right
        have hx := (h p (List.mem_cons_self _ _)).2 x
        rw [List.head?_reverse] at hx
        exact hx (Option.mem_def.mp hxl)

/-! ## `clean_text` output invariants and the fixed point -/

theorem map_fixed {α : Type} {f : α → α} {l : List α} (h : ∀ a ∈ l, f a = a) :
    l.map f = l := by
  induction l with
  | nil => rfl
  | cons c t ih =>
    rw [List.map_cons, h c (List.mem_cons_self _ _),
      ih (fun a ha => h a (List.mem_cons_of_mem _ ha))]

theorem cleanTextL_fixed {r : List Char} (hws : wsRunsOK r) (hch : noTrailWs r)
    (hlast : ∀ x, r.reverse.head? = some x → isPySpace x = false)
    (hstrip : pyStrip r = r) : cleanTextL r = r := by
  unfold cleanTextL
  rw [collapseBlank_id hws, map_fixed (splitNl_rstripped r hch hlast), joinNl_splitNl,
    hstrip]

theorem cleanTextL_wsRunsOK (l : List Char) : wsRunsOK (cleanTextL l) := by
  have h2 : Erase (collapseBlank l)
      (joinNl ((splitNl (collapseBlank l)).map pyRstrip)) := by
    have := erase_joinNl_rstrip (splitNl (collapseBlank l)) (splitNl_no_nl _)
    rwa [joinNl_splitNl] at this
  have h3 : wsRunsOK (joinNl ((splitNl (collapseBlank l)).map pyRstrip)) :=
    erase_wsRunsOK h2 (collapseBlank_wsRunsOK l)
  intro w hw hws
  exact h3 w (hw.trans (pyStrip_isInfix _)) hws

theorem cleanTextL_noTrail (l : List Char) : noTrailWs (cleanTextL l) := by
  have hj : noTrailWs (joinNl ((splitNl (collapseBlank l)).map pyRstrip)) := by
    apply noTrailWs_joinNl
    intro p hp
    obtain ⟨q, hq, rfl⟩ := List.mem_map.mp hp
    constructor
    · intro hmem
      exact splitNl_no_nl _ q hq ((pyRstrip_pre q).sublist.subset hmem)
    · exact pyRstrip_rev_head q
  exact List.Chain'.infix hj (pyStrip_isInfix _)

/-- **C7.** For every text `t`, the Text Cleaner of
`convert_frameworks_to_proper_yaml.py` is idempotent:
`clean_text (clean_text t) = clean_text t`.  One pass leaves no
whitespace-only run with three or more newlines, no trailing whitespace on
any line, and no leading/trailing whitespace, so the second pass's
blank-line collapse, per-line right-strip, and final strip are all
identities. -/
theorem claim_C7 (t : String) : clean_text (clean_text t) = clean_text t := by
  have h : cleanTextL (cleanTextL t.data) = cleanTextL t.data :=
    cleanTextL_fixed (cleanTextL_wsRunsOK t.data) (cleanTextL_noTrail t.data)
      (pyStrip_rev_head (joinNl ((splitNl (collapseBlank t.data)).map pyRstrip)))
      (pyStrip_idem (joinNl ((splitNl (collapseBlank t.data)).map pyRstrip)))
  show (⟨cleanTextL (cleanTextL t.data)⟩ : String) = ⟨cleanTextL t.data⟩
  rw [h]

end Scratchpad
